import Mathlib

/-!
# LicenseChain C++ SDK: webhook signatures and the resilient call layer

A shallow embedding of the parts of the SDK that carry its correctness
properties, followed by the theorems about them.

* `src/src/utils.cpp`: `Utils::toHex`, `Utils::createWebhookSignature`,
  `Utils::verifyWebhookSignature`.
* `src/include/licensechain/utils.h`: the template `Utils::retryWithBackoff`.
* `src/include/licensechain/exceptions.h`: the exception classes.
* `src/examples/advanced_features.cpp`:
  `AdvancedLicenseManager::validateLicenseWithRetry` and the license cache.
* `src/src/LicenseChain.cpp`: the class `LicenseChain`.
* `src/include/licensechain/webhook_handler.h` declares `WebhookHandler`; its
  member functions have no body among the sources and are modelled from the
  specification, each such definition saying so.

Conventions. A `std::string` is a Lean `String` and `==` on it is equality of
the character sequences. A `uint8_t` is a `Fin 256`. A C++ `int` is an `Int`,
and arithmetic that can leave the 32-bit range is wrapped by `wrapInt32`.
OpenSSL's `HMAC(EVP_sha256(), ...)` is a parameter `hmac key data`.
-/

namespace LicenseChain

/-! ## Machine integers -/

/-- The value of a mathematical integer once stored in a 32-bit two's
complement `int`. -/
def wrapInt32 (x : Int) : Int := (x + 2 ^ 31) % 2 ^ 32 - 2 ^ 31

/-- The values an `int` can hold. -/
def fitsInt32 (x : Int) : Prop := -(2 ^ 31) ≤ x ∧ x < 2 ^ 31

instance (x : Int) : Decidable (fitsInt32 x) := by
  unfold fitsInt32; infer_instance

/-! ## Crypto primitives (`src/src/utils.cpp`) -/

/-- A `uint8_t`. -/
abbrev Byte := Fin 256

/-- The keyed hash the SDK obtains from OpenSSL: `hmac key data` stands for the
bytes `HMAC(EVP_sha256(), key, keylen, data, datalen, nullptr, &len)` leaves
in `result[0 .. len)`. -/
abbrev Hmac := String → String → List Byte

namespace Utils

/-- What `ss << std::hex << n` writes for an `int` `n ≥ 0`: the base-16 digits
of `n`, most significant first, letters in lower case. -/
def streamHex (n : Nat) : List Char := Nat.toDigits 16 n

/-- The effect of `std::setw(w)` with `std::setfill(fill)` on the next item
written: it is padded on the left up to `w` characters. -/
def setwFill (w : Nat) (fill : Char) (item : List Char) : List Char :=
  List.replicate (w - item.length) fill ++ item

/-- The characters `Utils::toHex` sends to its `std::stringstream`: for each
byte in order, `std::hex << std::setw(2) << std::setfill('0') <<
static_cast<int>(byte)`. -/
def toHexChars : List Byte → List Char
  | [] => []
  | byte :: rest => setwFill 2 '0' (streamHex byte.val) ++ toHexChars rest

/-- `Utils::toHex`: the contents of the stream, `ss.str()`. -/
def toHex (data : List Byte) : String := String.mk (toHexChars data)

/-- `Utils::createWebhookSignature`: `HMAC` keyed with `secret` over `payload`,
rendered by `toHex`. -/
def createWebhookSignature (hmac : Hmac) (payload secret : String) : String :=
  toHex (hmac secret payload)

/-- `Utils::verifyWebhookSignature`: recompute the signature and compare with
`==`. -/
def verifyWebhookSignature (hmac : Hmac) (payload signature secret : String) : Bool :=
  let expectedSignature := createWebhookSignature hmac payload secret
  signature == expectedSignature

/-- The hexadecimal digit of a value below 16, in lower case: `'0'..'9'`, then
`'a'..'f'`. -/
def lowerHexDigit (d : Nat) : Char :=
  if d < 10 then Char.ofNat (48 + d) else Char.ofNat (87 + d)

/-- The sixteen characters a lower-case hexadecimal rendering may use. -/
def isLowerHex (c : Char) : Bool :=
  ('0' ≤ c && c ≤ '9') || ('a' ≤ c && c ≤ 'f')

/-- The two characters one byte is rendered as: the digit of `b / 16`, then the
digit of `b % 16`. -/
def byteHex (b : Byte) : List Char :=
  [lowerHexDigit (b.val / 16), lowerHexDigit (b.val % 16)]

end Utils

/-- A stand-in for the keyed hash with 32 bytes of output, to evaluate the
definitions on concrete inputs. Nothing is proved from its particular values. -/
def sampleHmac : Hmac := fun key data =>
  List.replicate 32 (Fin.ofNat (key.length + 7 * data.length))

/-! ## `WebhookHandler` (`src/include/licensechain/webhook_handler.h`)

The header declares the class; the bodies of its member functions are not
among the sources. -/

/-- The ways the verification of an inbound webhook fails (specification,
section 7). -/
inductive VerificationError where
  | MalformedTimestamp
  | StaleTimestamp
  | SignatureMismatch
deriving DecidableEq, Repr

/-- The configuration a `WebhookHandler` owns: the data members `secret_` and
`tolerance_seconds_`. -/
structure WebhookHandler where
  secret_ : String
  tolerance_seconds_ : Int
deriving DecidableEq, Repr

namespace WebhookHandler

/-- The default of the parameter `toleranceSeconds` of `verifyTimestamp`. -/
def defaultToleranceSeconds : Int := 300

/-- Modelled from the spec: a timestamp given in epoch seconds, read as an
instant; `none` when it cannot be read. Stands for the parsing that
`WebhookHandler` would do, whose code is missing. -/
def epochSeconds (timestamp : String) : Option Int :=
  if timestamp.data ≠ [] ∧ timestamp.data.all Char.isDigit then
    some (timestamp.data.foldl (fun value c => 10 * value + ((c.toNat : Int) - 48)) 0)
  else none

/-- Modelled from the spec: the signature with the optional `sha256=` in front
of it taken off (section 6: verification accepts it if present). Part of the
missing body of `WebhookHandler::verifySignature`. -/
def bareSignature (signature : String) : String :=
  if signature.data.take 7 = "sha256=".data then String.mk (signature.data.drop 7)
  else signature

/-- Modelled from the spec: the operation `verify` of section 4.2, the missing
body behind `WebhookHandler::verifySignature`. The timestamp is parsed, then
`|now - timestamp|` is compared with the tolerance, then the signature with the
one recomputed from payload and secret. `parseInstant` is the parser of
timestamps and `now` the clock reading, both external. -/
def verify (hmac : Hmac) (parseInstant : String → Option Int) (now : Int)
    (payload signature timestamp secret : String) (tolerance : Int) :
    Except VerificationError Unit :=
  match parseInstant timestamp with
  | none => .error .MalformedTimestamp
  | some t =>
    if tolerance < |now - t| then .error .StaleTimestamp
    else if bareSignature signature == Utils.createWebhookSignature hmac payload secret then .ok ()
    else .error .SignatureMismatch

/-- Modelled from the spec: the static `WebhookHandler::verifyTimestamp`, whose
body is missing: steps 1 and 2 of section 4.2. -/
def verifyTimestamp (parseInstant : String → Option Int) (now : Int) (timestamp : String)
    (toleranceSeconds : Int) : Bool :=
  match parseInstant timestamp with
  | none => false
  | some t => !decide (toleranceSeconds < |now - t|)

/-- Modelled from the spec: `WebhookHandler::verifySignature(payload, signature,
timestamp)`, whose body is missing: section 4.2 with the handler's secret and
tolerance. -/
def verifySignature (h : WebhookHandler) (hmac : Hmac) (parseInstant : String → Option Int)
    (now : Int) (payload signature timestamp : String) : Bool :=
  match verify hmac parseInstant now payload signature timestamp h.secret_ h.tolerance_seconds_ with
  | .ok _ => true
  | .error _ => false

/-- Modelled from the spec: the value `WebhookHandler::processWebhook` returns,
whose body is missing (section 4.4): false when verification fails, and true
after the dispatch otherwise, whatever the callbacks do. -/
def processWebhook (h : WebhookHandler) (hmac : Hmac) (parseInstant : String → Option Int)
    (now : Int) (payload signature timestamp : String) : Bool :=
  match verify hmac parseInstant now payload signature timestamp h.secret_ h.tolerance_seconds_ with
  | .ok _ => true
  | .error _ => false

end WebhookHandler

/-- A verification entry point as the HTTP layer uses it: handed the payload,
the signature and the timestamp of a delivery at the time `now`, it accepts or
refuses. -/
abbrev VerificationEntry := String → String → String → Int → Bool

/-- An entry point refuses every delivery whose timestamp is more than
`tolerance` seconds away from the time of the check, whatever its signature. -/
def RejectsStale (parseInstant : String → Option Int) (tolerance : Int)
    (entry : VerificationEntry) : Prop :=
  ∀ (payload signature timestamp : String) (now t : Int),
    parseInstant timestamp = some t → tolerance < |now - t| →
      entry payload signature timestamp now = false

/-- `Utils::verifyWebhookSignature` used as the entry point: it has three
parameters, payload, signature and secret, so the timestamp and the time of the
check are not handed on. -/
def Utils.verifyWebhookSignatureEntry (hmac : Hmac) (secret : String) : VerificationEntry :=
  fun payload signature _ _ => Utils.verifyWebhookSignature hmac payload signature secret

/-! ## Exceptions (`src/include/licensechain/exceptions.h`) -/

/-- `LicenseChainException`: a `std::runtime_error` (its `what()` is `message`)
with an error code and a status code. -/
structure LicenseChainException where
  message : String
  error_code_ : String
  status_code_ : Int
deriving DecidableEq, Repr

namespace LicenseChainException

/-- `getErrorCode()`. -/
def getErrorCode (e : LicenseChainException) : String := e.error_code_

/-- `getStatusCode()`. -/
def getStatusCode (e : LicenseChainException) : Int := e.status_code_

end LicenseChainException

/-- `NetworkException(message)`. -/
def NetworkException (message : String) : LicenseChainException :=
  ⟨message, "NETWORK_ERROR", 0⟩

/-- `ValidationException(message)`. -/
def ValidationException (message : String) : LicenseChainException :=
  ⟨message, "VALIDATION_ERROR", 400⟩

/-- `AuthenticationException(message)`. -/
def AuthenticationException (message : String) : LicenseChainException :=
  ⟨message, "AUTHENTICATION_ERROR", 401⟩

/-- `NotFoundException(message)`. -/
def NotFoundException (message : String) : LicenseChainException :=
  ⟨message, "NOT_FOUND_ERROR", 404⟩

/-- `RateLimitException(message)`. -/
def RateLimitException (message : String) : LicenseChainException :=
  ⟨message, "RATE_LIMIT_ERROR", 429⟩

/-- `ServerException(message)`. -/
def ServerException (message : String) : LicenseChainException :=
  ⟨message, "SERVER_ERROR", 500⟩

/-- `ConfigurationException(message)`. -/
def ConfigurationException (message : String) : LicenseChainException :=
  ⟨message, "CONFIGURATION_ERROR", 500⟩

/-! ## Observable behaviour of the retrying code

The retry loops call an operation and sleep. A run is described by what it
returns together with the sequence of these two kinds of event, in the order
in which they happen. -/

/-- What one invocation of a C++ callable does: it returns a value or throws. -/
inductive Outcome (ε α : Type) where
  | returned (value : α)
  | threw (e : ε)
deriving DecidableEq, Repr

/-- An event of a run: the operation is invoked, or the thread sleeps for a
number of milliseconds (`std::this_thread::sleep_for`). -/
inductive Event where
  | invoke
  | sleep (milliseconds : Int)
deriving DecidableEq, Repr

namespace Event

/-- Whether the event is an invocation of the operation. -/
def isInvoke : Event → Bool
  | invoke => true
  | sleep _ => false

/-- The duration of a sleep, nothing for an invocation. -/
def sleepDuration : Event → Option Int
  | invoke => none
  | sleep ms => some ms

end Event

/-- The number of invocations in a sequence of events. -/
def callsIn (trace : List Event) : Nat := (trace.filter Event.isInvoke).length

/-- The durations of the sleeps in a sequence of events, in order. -/
def sleepsIn (trace : List Event) : List Int := trace.filterMap Event.sleepDuration

/-- A finished run: its result and its events in order. -/
structure Run (ρ : Type) where
  result : ρ
  trace : List Event
deriving DecidableEq, Repr

namespace Run

/-- The run that first performs `events` and then continues as `r`. -/
def after {ρ : Type} (events : List Event) (r : Run ρ) : Run ρ :=
  ⟨r.result, events ++ r.trace⟩

/-- How many times the run invoked the operation. -/
def calls {ρ : Type} (r : Run ρ) : Nat := callsIn r.trace

/-- The durations of the run's sleeps, in order. -/
def sleeps {ρ : Type} (r : Run ρ) : List Int := sleepsIn r.trace

end Run

/-! ## `Utils::retryWithBackoff` (`src/include/licensechain/utils.h`) -/

namespace Utils

/-- The default of the parameter `maxRetries`. -/
def defaultMaxRetries : Int := 3

/-- The default of the parameter `initialDelayMs`. -/
def defaultInitialDelayMs : Int := 1000

/-- The `for` loop of `Utils::retryWithBackoff`, entered with loop counter `i`,
backoff `delay` and `lastException` (`none` is the null `std::exception_ptr`).
The callable is given by the outcomes of its successive invocations: `func n`
is what its invocation number `n` (counted from 0) does, and `n` invocations
have been made so far. The loop runs at most `maxRetries - i` iterations; the
first argument bounds them for the recursion and is `maxRetries` at the call.
The result `threw lastException` is `std::rethrow_exception(lastException)`.
`delay *= 2` is evaluated in `int`. -/
def retryLoop {ε α : Type} (func : Nat → Outcome ε α) (maxRetries : Int) :
    Nat → Int → Int → Option ε → Nat → Run (Outcome (Option ε) α)
  | 0, _, _, lastException, _ => ⟨.threw lastException, []⟩
  | fuel + 1, i, delay, lastException, n =>
    if i < maxRetries then
      match func n with
      | .returned value => ⟨.returned value, [.invoke]⟩
      | .threw e =>
        if i < maxRetries - 1 then
          (retryLoop func maxRetries fuel (i + 1) (wrapInt32 (delay * 2)) (some e) (n + 1)).after
            [.invoke, .sleep delay]
        else
          (retryLoop func maxRetries fuel (i + 1) delay (some e) (n + 1)).after [.invoke]
    else ⟨.threw lastException, []⟩

/-- `Utils::retryWithBackoff(func, maxRetries, initialDelayMs)`. -/
def retryWithBackoff {ε α : Type} (func : Nat → Outcome ε α) (maxRetries initialDelayMs : Int) :
    Run (Outcome (Option ε) α) :=
  retryLoop func maxRetries maxRetries.toNat 0 initialDelayMs none 0

/-- The events of `k` failed attempts that are each followed by a sleep, the
first sleep lasting `delay` and each later one twice the one before, doubled
in `int`. -/
def backoffTrace (delay : Int) : Nat → List Event
  | 0 => []
  | k + 1 => .invoke :: .sleep delay :: backoffTrace (wrapInt32 (delay * 2)) k

/-- The events of `k` failed attempts that are each followed by a sleep, when
the sleep after attempt `j + 1` lasts `delay * 2 ^ j` exactly. -/
def exactBackoffTrace (delay : Int) (k : Nat) : List Event :=
  (List.range k).flatMap fun j => [.invoke, .sleep (delay * 2 ^ j)]

end Utils

/-! ## `AdvancedLicenseManager::validateLicenseWithRetry`
(`src/examples/advanced_features.cpp`) -/

/-- Modelled from the spec: the enumeration `LicenseChain::ErrorType` has no
declaration among the sources. These are the enumerators the example names;
`OTHER` stands for any further one. -/
inductive ErrorType where
  | NETWORK_ERROR
  | INVALID_LICENSE
  | EXPIRED_LICENSE
  | HARDWARE_MISMATCH
  | RETRY_EXHAUSTED
  | OTHER (code : Nat)
deriving DecidableEq, Repr

/-- Modelled from the spec: the class template `LicenseChain::Result<T>` has no
declaration among the sources. These are the members the example reads and
writes: `success`, `error`, `errorType` and the payload `license`. -/
structure Result (L : Type) where
  success : Bool
  license : L
  error : String
  errorType : ErrorType
deriving DecidableEq, Repr

namespace Result

/-- Modelled from the spec: the static `Result<T>::error(errorType, message)`,
a failure that carries no license (a default-constructed one). The member
`error` has the name already. -/
def makeError {L : Type} [Inhabited L] (errorType : ErrorType) (message : String) : Result L :=
  ⟨false, default, message, errorType⟩

end Result

namespace AdvancedLicenseManager

/-- The value of the `int` expression `1 << attempt` for `attempt ≥ 0`: the
product `2 ^ attempt` as stored in an `int`. -/
def shiftLeftOne (attempt : Int) : Int := wrapInt32 (2 ^ attempt.toNat)

/-- The `for` loop of `validateLicenseWithRetry`, entered with loop counter
`attempt`. `validateLicense licenseKey n` is what invocation number `n`
(counted from 0) of `client.validateLicense(licenseKey)` returns, and `n`
invocations have been made so far. The first argument bounds the iterations
for the recursion. The sleep is `std::chrono::seconds(1 << attempt)`, recorded
in milliseconds; the line written to `std::cerr` is not recorded. -/
def validateLoop {L : Type} [Inhabited L] (validateLicense : String → Nat → Result L)
    (licenseKey : String) (maxRetries : Int) : Nat → Int → Nat → Run (Result L)
  | 0, _, _ => ⟨Result.makeError .RETRY_EXHAUSTED "Maximum retry attempts exceeded", []⟩
  | fuel + 1, attempt, n =>
    if attempt ≤ maxRetries then
      let result := validateLicense licenseKey n
      if result.success then
        ⟨result, [.invoke]⟩
      else if result.errorType != .NETWORK_ERROR || attempt == maxRetries then
        ⟨result, [.invoke]⟩
      else
        (validateLoop validateLicense licenseKey maxRetries fuel (attempt + 1) (n + 1)).after
          [.invoke, .sleep (1000 * shiftLeftOne attempt)]
    else ⟨Result.makeError .RETRY_EXHAUSTED "Maximum retry attempts exceeded", []⟩

/-- `AdvancedLicenseManager::validateLicenseWithRetry(licenseKey, maxRetries)`. -/
def validateLicenseWithRetry {L : Type} [Inhabited L] (validateLicense : String → Nat → Result L)
    (licenseKey : String) (maxRetries : Int) : Run (Result L) :=
  validateLoop validateLicense licenseKey maxRetries maxRetries.toNat 1 0

/-- The events of `k` attempts, numbered from `attempt` on, that are each
followed by the sleep of `validateLicenseWithRetry`. -/
def networkRetryTrace (attempt : Int) : Nat → List Event
  | 0 => []
  | k + 1 => .invoke :: .sleep (1000 * shiftLeftOne attempt) :: networkRetryTrace (attempt + 1) k

/-- A result that is a failure of type `NETWORK_ERROR`. -/
def isNetworkFailure {L : Type} (result : Result L) : Bool :=
  !result.success && result.errorType == .NETWORK_ERROR

end AdvancedLicenseManager

/-! ## Operations used as concrete inputs -/

/-- The outcome of an invocation with every error `e` replaced by `g e`. -/
def Outcome.mapError {ε ε' α : Type} (g : ε → ε') : Outcome ε α → Outcome ε' α
  | .returned value => .returned value
  | .threw e => .threw (g e)

/-- An operation that throws a `NetworkException` on its first two invocations
and returns 7 from the third on. -/
def failTwiceThenReturn : Nat → Outcome LicenseChainException Nat :=
  fun n => if n < 2 then .threw (NetworkException "connection refused") else .returned 7

/-- An operation that throws a `ValidationException` on every invocation. -/
def alwaysInvalid : Nat → Outcome LicenseChainException Nat :=
  fun _ => .threw (ValidationException "license key must not be empty")

/-- An operation that throws a `NetworkException` on every invocation. -/
def alwaysUnreachable : Nat → Outcome LicenseChainException Nat :=
  fun _ => .threw (NetworkException "connection refused")

/-- A client whose `validateLicense` fails with `NETWORK_ERROR` on every
invocation. -/
def clientUnreachable : String → Nat → Result String :=
  fun _ _ => ⟨false, "", "connection refused", .NETWORK_ERROR⟩

/-- A client whose `validateLicense` fails with `NETWORK_ERROR` on its first
invocation and with `INVALID_LICENSE` from the second on. -/
def clientThenInvalid : String → Nat → Result String :=
  fun _ n =>
    if n < 1 then ⟨false, "", "connection refused", .NETWORK_ERROR⟩
    else ⟨false, "", "license not found", .INVALID_LICENSE⟩

/-! ## `std::map` with `std::string` keys

The example classes keep their state in `std::map<std::string, V>`. Of a map
they use `find`, `operator[]` followed by an assignment, `clear` and `size`;
they never iterate, so the order of the entries is not observed and the
entries are kept here in the order of their insertion. -/

/-- The entries of a `std::map<std::string, V>`. -/
abbrev StdMap (V : Type) := List (String × V)

namespace StdMap

/-- `m.find(key)`: the value stored under `key`, `none` for `m.end()`. -/
def find {V : Type} : StdMap V → String → Option V
  | [], _ => none
  | (k, v) :: rest, key => if k = key then some v else find rest key

/-- The statement `m[key] = value`: the entry of `key` is overwritten when
there is one and created otherwise. -/
def assign {V : Type} : StdMap V → String → V → StdMap V
  | [], key, value => [(key, value)]
  | (k, v) :: rest, key, value =>
    if k = key then (key, value) :: rest else (k, v) :: assign rest key value

/-- `m.size()`. -/
def size {V : Type} (m : StdMap V) : Nat := m.length

/-- The keys of the entries. -/
def keys {V : Type} (m : StdMap V) : List String := m.map Prod.fst

end StdMap

/-! ## `AdvancedLicenseManager`: the license cache
(`src/examples/advanced_features.cpp`) -/

/-- Modelled from the spec: the `LicenseChain::License` of the example has the
member `cachedAt`, a `time_t`, which the `License` of `models.h` has not; its
declaration is not among the sources. `details` stands for the other members. -/
structure License (D : Type) where
  details : D
  cachedAt : Int
deriving DecidableEq, Repr, Inhabited

namespace Result

/-- Modelled from the spec: the static `Result<T>::success(value)`, whose
declaration is not among the sources. The sources do not say what the error
members of a success hold; they are left empty here. -/
def makeSuccess {L : Type} (license : L) : Result L :=
  ⟨true, license, "", .OTHER 0⟩

end Result

namespace AdvancedLicenseManager

/-- The data member `licenseCache`. -/
abbrev LicenseCache (D : Type) := StdMap (License D)

/-- The data member `cacheTimeout`, `std::chrono::seconds{300}`. -/
def cacheTimeout : Int := 300

/-- The default of the parameter `maxRetries` of `validateLicenseWithRetry`. -/
def defaultMaxRetries : Int := 3

/-- What a call of `validateLicenseWithCache` leaves behind: the result it
returns, the cache afterwards, and the invocations of the client and the
sleeps it made. -/
structure CachedRun (D : Type) where
  result : Result (License D)
  licenseCache : LicenseCache D
  trace : List Event
deriving DecidableEq, Repr

/-- The first part of `validateLicenseWithCache`: the entry found for the key
when `now - cacheTime < cacheTimeout`. `now` is the reading of
`std::chrono::system_clock::now()` in whole seconds; as `cachedAt` and the
timeout are whole seconds, the fraction of a second dropped does not change
the comparison. -/
def freshEntry {D : Type} (licenseCache : LicenseCache D) (licenseKey : String) (now : Int) :
    Option (License D) :=
  match StdMap.find licenseCache licenseKey with
  | some cached => if now - cached.cachedAt < cacheTimeout then some cached else none
  | none => none

/-- The second part of `validateLicenseWithCache`: the license is validated
with `validateLicenseWithRetry` and, on success, stamped with `stamp`, the
value `std::time(nullptr)` returns at that moment, and stored under the key. -/
def validateAndStore {D : Type} [Inhabited D] (validateLicense : String → Nat → Result (License D))
    (licenseCache : LicenseCache D) (licenseKey : String) (stamp : Int) : CachedRun D :=
  let run := validateLicenseWithRetry validateLicense licenseKey defaultMaxRetries
  if run.result.success then
    let license : License D := ⟨run.result.license.details, stamp⟩
    ⟨⟨run.result.success, license, run.result.error, run.result.errorType⟩,
      StdMap.assign licenseCache licenseKey license, run.trace⟩
  else
    ⟨run.result, licenseCache, run.trace⟩

/-- `AdvancedLicenseManager::validateLicenseWithCache(licenseKey)`, called with
the cache `licenseCache` when the clock reads `now`; `stamp` is what the clock
reads when the result is stored. -/
def validateLicenseWithCache {D : Type} [Inhabited D]
    (validateLicense : String → Nat → Result (License D)) (licenseCache : LicenseCache D)
    (licenseKey : String) (now stamp : Int) : CachedRun D :=
  match freshEntry licenseCache licenseKey now with
  | some cached => ⟨Result.makeSuccess cached, licenseCache, []⟩
  | none => validateAndStore validateLicense licenseCache licenseKey stamp

/-- `AdvancedLicenseManager::clearCache()`: the cache afterwards. -/
def clearCache {D : Type} (_licenseCache : LicenseCache D) : LicenseCache D := []

/-- `AdvancedLicenseManager::getCacheSize()`. -/
def getCacheSize {D : Type} (licenseCache : LicenseCache D) : Nat := StdMap.size licenseCache

end AdvancedLicenseManager

namespace WebhookHandler

/-- The data member `event_callbacks_`, a
`std::map<std::string, std::vector<EventCallback>>`. -/
abbrev EventCallbacks (H : Type) := StdMap (List H)

/-- Modelled from the spec: `WebhookHandler::onEvent(eventType, callback)`,
whose body is missing: the callback is put at the end of the sequence
registered for the type (section 3: insertion order preserved, duplicates
allowed). -/
def onEvent {H : Type} (event_callbacks_ : EventCallbacks H) (eventType : String) (callback : H) :
    EventCallbacks H :=
  StdMap.assign event_callbacks_ eventType
    ((StdMap.find event_callbacks_ eventType).getD [] ++ [callback])

/-- Modelled from the spec: the callbacks `WebhookHandler::callEventCallbacks`
invokes for an event of type `eventType`, in the order of their invocation;
the body is missing (section 4.3: every callback registered for the type, in
registration order). -/
def callEventCallbacks {H : Type} (event_callbacks_ : EventCallbacks H) (eventType : String) :
    List H :=
  (StdMap.find event_callbacks_ eventType).getD []

end WebhookHandler

namespace WebhookManager

/-- The private member functions of `WebhookManager` that handle one kind of
event each. -/
inductive BuiltinHandler where
  | handleLicenseCreated
  | handleLicenseUpdated
  | handleLicenseRevoked
  | handleLicenseExpired
  | handleUserRegistered
  | handlePaymentCompleted
  | handlePaymentFailed
  | handlePaymentRefunded
  | handleHardwareBound
  | handleHardwareUnbound
  | handleSystemMaintenance
  | handleSystemUpdate
deriving DecidableEq, Repr

/-- The key a built-in handler reads with `data.at(...)`, which throws
`std::out_of_range` when the key is absent. -/
def BuiltinHandler.requiredKey : BuiltinHandler → String
  | .handleLicenseCreated => "licenseKey"
  | .handleLicenseUpdated => "licenseKey"
  | .handleLicenseRevoked => "licenseKey"
  | .handleLicenseExpired => "licenseKey"
  | .handleUserRegistered => "username"
  | .handlePaymentCompleted => "transactionId"
  | .handlePaymentFailed => "transactionId"
  | .handlePaymentRefunded => "transactionId"
  | .handleHardwareBound => "hardwareId"
  | .handleHardwareUnbound => "hardwareId"
  | .handleSystemMaintenance => "message"
  | .handleSystemUpdate => "version"

/-- The names of the events the dispatcher handles. -/
def handledEvents : List String :=
  ["license.created", "license.updated", "license.revoked", "license.expired",
    "user.registered", "payment.completed", "payment.failed", "payment.refunded",
    "hardware.bound", "hardware.unbound", "system.maintenance", "system.update"]

/-- The chain of `if (event == ...) ... else if ...` in the lambda of
`setupWebhookHandler`: the member function it calls, if any. -/
def selectHandler (event : String) : Option BuiltinHandler :=
  if event = "license.created" then some .handleLicenseCreated
  else if event = "license.updated" then some .handleLicenseUpdated
  else if event = "license.revoked" then some .handleLicenseRevoked
  else if event = "license.expired" then some .handleLicenseExpired
  else if event = "user.registered" then some .handleUserRegistered
  else if event = "payment.completed" then some .handlePaymentCompleted
  else if event = "payment.failed" then some .handlePaymentFailed
  else if event = "payment.refunded" then some .handlePaymentRefunded
  else if event = "hardware.bound" then some .handleHardwareBound
  else if event = "hardware.unbound" then some .handleHardwareUnbound
  else if event = "system.maintenance" then some .handleSystemMaintenance
  else if event = "system.update" then some .handleSystemUpdate
  else none

/-- A function the dispatcher invokes: a built-in handler, or a handler that
was registered with `registerEventHandler`. -/
inductive Invoked (H : Type) where
  | builtin (handler : BuiltinHandler)
  | registered (handler : H)
deriving DecidableEq, Repr

/-- What one dispatch does: the functions it invokes, in order, and whether it
returns normally (`false`: an exception leaves it). -/
structure Dispatch (H : Type) where
  invoked : List (Invoked H)
  returned : Bool
deriving DecidableEq, Repr

/-- The data member `eventHandlers`, a map from the event name to one
`std::function`. -/
abbrev EventHandlers (H : Type) := StdMap H

/-- `WebhookManager::registerEventHandler(event, handler)`:
`eventHandlers[event] = handler`. -/
def registerEventHandler {H : Type} (eventHandlers : EventHandlers H) (event : String)
    (handler : H) : EventHandlers H :=
  StdMap.assign eventHandlers event handler

/-- The lambda `WebhookManager::setupWebhookHandler` installs, called with
`event` and `data` while the object holds `eventHandlers`. The output to
`std::cout` is not recorded, and `client.trackEvent(...)`, a call into the
client whose code is not among the sources, is taken to return. The selected
member function runs and throws when `data` lacks the key it reads. -/
def setupWebhookHandler {H : Type} (_eventHandlers : EventHandlers H) (event : String)
    (data : StdMap String) : Dispatch H :=
  match selectHandler event with
  | some handler =>
    ⟨[.builtin handler], (StdMap.find data handler.requiredKey).isSome⟩
  | none => ⟨[], true⟩

end WebhookManager

/-! ## The class `LicenseChain` (`src/src/LicenseChain.cpp`) -/

set_option linter.dupNamespace false

/-- The class `LicenseChain`: its data members. -/
structure LicenseChain where
  apiKey : String
  apiUrl : String
deriving DecidableEq, Repr

/-- Whether `text` begins with `pattern`. -/
def beginsWith : List Char → List Char → Bool
  | [], _ => true
  | _ :: _, [] => false
  | p :: ps, t :: ts => p == t && beginsWith ps ts

/-- `text.find(pattern)` of `std::string`: the first position at which
`pattern` occurs in `text`, `none` for `std::string::npos`. -/
def stringFind (pattern : List Char) : List Char → Option Nat
  | [] => if beginsWith pattern [] then some 0 else none
  | t :: ts =>
    if beginsWith pattern (t :: ts) then some 0
    else (stringFind pattern ts).map (· + 1)

namespace LicenseChain

/-- The constructor `LicenseChain::LicenseChain(apiKey)`. -/
def create (apiKey : String) : LicenseChain :=
  ⟨apiKey, "https://licensechain.app/api/validation.php"⟩

/-- `LicenseChain::makeApiRequest(licenseKey)`. `transfer url` is what
`curl_easy_perform` does with the write callback for the URL: `none` when
libcurl makes no call of it (`curl_easy_init` or the transfer fails, or no
data of a body arrives), `some body` when libcurl calls it with the data of
the response. The lambda of line 23 is passed to the variadic
`curl_easy_setopt` as it is, an object of closure type that nothing converts
to a pointer to a function, so the callback libcurl holds is not the lambda:
no code appends to `readBuffer`, and the call libcurl makes to deliver the
data has undefined behaviour (in practice the process is killed inside
`curl_easy_perform`). The
result is `some readBuffer`, the empty string, when the callback is not
called, and `none`, no defined return, when it is. -/
def makeApiRequest (self : LicenseChain) (transfer : String → Option String)
    (licenseKey : String) : Option String :=
  let url := self.apiUrl ++ "?license_key=" ++ licenseKey ++ "&api_key=" ++ self.apiKey
  let readBuffer := ""
  match transfer url with
  | none => some readBuffer
  | some _ => none

/-- `LicenseChain::validateLicense(licenseKey)`:
`response.find("valid") != std::string::npos`, when `makeApiRequest` returns
a response. -/
def validateLicense (self : LicenseChain) (transfer : String → Option String)
    (licenseKey : String) : Option Bool :=
  (self.makeApiRequest transfer licenseKey).map fun response =>
    (stringFind "valid".data response.data).isSome

end LicenseChain

/-- An operation that throws a `ValidationException` on its first two
invocations and a `ServerException` from the third on. -/
def failDifferently : Nat → Outcome LicenseChainException Nat :=
  fun n =>
    if n < 2 then .threw (ValidationException "license key must not be empty")
    else .threw (ServerException "internal error")

/-! ## `Utils`: pagination, strings and generators (`src/src/utils.cpp`)

A `size_t` is a natural number below `2 ^ 64`; a subtraction in `size_t` is
wrapped by `wrapSize`. The functions of `<cctype>` are those of the "C"
locale. -/

namespace Utils

/-- The value of a mathematical integer once stored in a 64-bit `size_t`. -/
def wrapSize (x : Int) : Nat := (x % 2 ^ 64).toNat

/-- `Utils::validatePagination(page, limit)`. -/
def validatePagination (page limit : Int) : Int × Int :=
  let validPage := max page 1
  let validLimit := min (max limit 1) 100
  (validPage, validLimit)

/-- `text.substr(pos, count)` of `std::string` for `pos ≤ text.size()`: at most
`count` characters from position `pos` on. -/
def substr (text : List Char) (pos count : Nat) : List Char := (text.drop pos).take count

/-- `Utils::truncateString(text, maxLength)`; `maxLength - 3` is evaluated in
`size_t`. -/
def truncateString (text : String) (maxLength : Nat) : String :=
  if text.length ≤ maxLength then text
  else String.mk (substr text.data 0 (wrapSize ((maxLength : Int) - 3))) ++ "..."

/-- `std::isalnum`. -/
def isalnum (c : Char) : Bool :=
  ('0' ≤ c && c ≤ '9') || ('A' ≤ c && c ≤ 'Z') || ('a' ≤ c && c ≤ 'z')

/-- `std::isupper`. -/
def isupper (c : Char) : Bool := 'A' ≤ c && c ≤ 'Z'

/-- `std::tolower`. -/
def tolower (c : Char) : Char := if isupper c then Char.ofNat (c.toNat + 32) else c

/-- `(int)c` for a `char` that is signed, as it is on x86: the bytes from 0x80
on are negative. -/
def charToInt (c : Char) : Int := if c.toNat < 128 then (c.toNat : Int) else (c.toNat : Int) - 256

/-- What `ss << std::uppercase << std::hex << n` writes for an `int`: the
base-16 digits of the 32-bit pattern of `n`, letters in upper case, with no
padding. -/
def streamHexUpper (n : Int) : List Char :=
  (Nat.toDigits 16 (n % 2 ^ 32).toNat).map Char.toUpper

/-- The loop of `Utils::urlEncode` over the characters of `data`. -/
def urlEncodeChars : List Char → List Char
  | [] => []
  | c :: rest =>
    (if isalnum c || c == '-' || c == '_' || c == '.' || c == '~' then [c]
      else '%' :: streamHexUpper (charToInt c)) ++ urlEncodeChars rest

/-- `Utils::urlEncode(data)`. -/
def urlEncode (data : String) : String := String.mk (urlEncodeChars data.data)

/-- `static_cast<char>(value)` for an `int`. -/
def intToChar (value : Int) : Char := Char.ofNat (value % 256).toNat

/-- The loop of `Utils::urlDecode`. The test `i + 2 < data.length()` holds when
two characters follow the one at `i`. `hexExtract` stands for the stream
library: `hexExtract [a, b]` is the `int` that `ss >> value` leaves in `value`
after `ss << std::hex << data.substr(i + 1, 2)`. -/
def urlDecodeChars (hexExtract : List Char → Int) : List Char → List Char
  | [] => []
  | c :: a :: b :: rest =>
    if c = '%' then intToChar (hexExtract [a, b]) :: urlDecodeChars hexExtract rest
    else c :: urlDecodeChars hexExtract (a :: b :: rest)
  | c :: rest => c :: urlDecodeChars hexExtract rest

/-- `Utils::urlDecode(data)`. -/
def urlDecode (hexExtract : List Char → Int) (data : String) : String :=
  String.mk (urlDecodeChars hexExtract data.data)

/-- The constant `chars` of `Utils::generateLicenseKey`. -/
def licenseKeyChars : List Char := "ABCDEFGHIJKLMNOPQRSTUVWXYZ0123456789".data

/-- `Utils::generateLicenseKey()`. `dist i` is the value the draw number `i`
(counted from 0) of `dist(rng)` gives, an index from 0 to `chars.size() - 1`. -/
def generateLicenseKey (dist : Nat → Fin 36) : String :=
  String.mk ((List.range 32).map fun i => licenseKeyChars.get ((dist i).cast (by decide)))

/-- A character of the class `[A-Z0-9]`. -/
def isUpperAlnum (c : Char) : Bool := ('A' ≤ c && c ≤ 'Z') || ('0' ≤ c && c ≤ '9')

/-- `std::regex_match(s, std::regex("^[A-Z0-9]+$"))`: the whole of `s` is one or
more characters of the class. -/
def matchesKeyRegex (s : List Char) : Bool := !s.isEmpty && s.all isUpperAlnum

/-- `Utils::validateLicenseKey(licenseKey)`. -/
def validateLicenseKey (licenseKey : String) : Bool :=
  if licenseKey.data.isEmpty || licenseKey.length != 32 then false
  else matchesKeyRegex licenseKey.data

/-- The digits `ss << dist(rng)` writes, with `std::hex` set, for the draws
number `start` to `start + count - 1`. -/
def uuidDigits (dist : Nat → Fin 16) (start count : Nat) : List Char :=
  (List.range' start count).flatMap fun i => streamHex (dist i).val

/-- `Utils::generateUuid()`. `dist i` is the value the draw number `i` of
`dist(rng)` gives, from 0 to 15, and `8 + dist2` the value of the one draw of
`dist2(rng)`, from 8 to 11. -/
def generateUuid (dist : Nat → Fin 16) (dist2 : Fin 4) : String :=
  String.mk (uuidDigits dist 0 8 ++ "-".data ++ uuidDigits dist 8 4 ++ "-4".data
    ++ uuidDigits dist 12 3 ++ "-".data ++ streamHex (8 + dist2.val) ++ uuidDigits dist 15 3
    ++ "-".data ++ uuidDigits dist 18 12)

/-- The part `[0-9a-f]{n}` of a regular expression, matched at the head of
`s`: what is left of `s` after it. -/
def matchHexRun : Nat → List Char → Option (List Char)
  | 0, s => some s
  | _ + 1, [] => none
  | n + 1, c :: s => if isLowerHex c then matchHexRun n s else none

/-- The part `-` of a regular expression, matched at the head of `s`. -/
def matchDash : List Char → Option (List Char)
  | [] => none
  | c :: s => if c = '-' then some s else none

/-- `std::regex_match` of `s` with the expression
`^[0-9a-f]{8}-[0-9a-f]{4}-[0-9a-f]{4}-[0-9a-f]{4}-[0-9a-f]{12}$`. -/
def matchesUuidRegex (s : List Char) : Bool :=
  match (((((((((matchHexRun 8 s).bind matchDash).bind (matchHexRun 4)).bind matchDash).bind
      (matchHexRun 4)).bind matchDash).bind (matchHexRun 4)).bind matchDash).bind
      (matchHexRun 12)) with
  | some [] => true
  | _ => false

/-- `Utils::validateUuid(uuid)`. -/
def validateUuid (uuid : String) : Bool :=
  if uuid.data.isEmpty then false else matchesUuidRegex uuid.data

end Utils

/-! ## `Utils`: slugs, chunks and JSON (`src/src/utils.cpp`) -/

namespace Utils

/-- `std::replace(first, last, old, new)` over a whole string. -/
def replaceChar (old new : Char) (s : List Char) : List Char :=
  s.map fun c => if c = old then new else c

/-- `std::regex_replace(s, std::regex("-+"), "-")`: every maximal run of dashes
is replaced by one dash, which is to drop each dash that another dash
follows. -/
def collapseDashes : List Char → List Char
  | [] => []
  | [c] => [c]
  | c :: d :: rest =>
    if c = '-' ∧ d = '-' then collapseDashes (d :: rest) else c :: collapseDashes (d :: rest)

/-- `if (!result.empty() && result[0] == '-') result = result.substr(1);` -/
def dropLeadingDash (result : List Char) : List Char :=
  if result.head? = some '-' then result.drop 1 else result

/-- `if (!result.empty() && result.back() == '-') result.pop_back();` -/
def dropTrailingDash (result : List Char) : List Char :=
  if result.getLast? = some '-' then result.dropLast else result

/-- The body of `Utils::slugify` for a text that is not empty, on the
characters of the string. -/
def slugifyChars (text : List Char) : List Char :=
  let result := text.map tolower
  let result := replaceChar ' ' '-' result
  let result := replaceChar '_' '-' result
  let result := collapseDashes result
  let result := dropLeadingDash result
  dropTrailingDash result

/-- `Utils::slugify(text)`. -/
def slugify (text : String) : String :=
  if text.data.isEmpty then text else String.mk (slugifyChars text.data)

/-- The outer loop of `Utils::chunkArray`, entered with the index `i`: the
chunks it appends from there on, `none` when the first argument, which bounds
the number of iterations, is used up before the loop ends. The inner loop
copies the elements from `i` up to `min(i + chunkSize, array.size())`. The
indices are `size_t`; with fewer than `2 ^ 63` elements no sum wraps. -/
def chunkLoop (array : List String) (chunkSize : Nat) : Nat → Nat → Option (List (List String))
  | 0, _ => none
  | fuel + 1, i =>
    if i < array.length then
      let chunk := (array.drop i).take (min (i + chunkSize) array.length - i)
      (chunkLoop array chunkSize fuel (i + chunkSize)).map (chunk :: ·)
    else some []

/-- `Utils::chunkArray(array, chunkSize)`, with `fuel` iterations of the outer
loop allowed. -/
def chunkArray (array : List String) (chunkSize fuel : Nat) : Option (List (List String)) :=
  chunkLoop array chunkSize fuel 0

/-- The double-quote character. -/
def quote : Char := Char.ofNat 34

/-- The loop of `Utils::jsonSerialize` over the entries of the map in the order
of iteration; `first` is the flag of that name. -/
def jsonSerializeLoop : Bool → List (String × String) → List Char
  | _, [] => []
  | first, (key, value) :: rest =>
    (if first then [] else [',']) ++ [quote] ++ key.data ++ [quote, ':', quote] ++ value.data
      ++ [quote] ++ jsonSerializeLoop false rest

/-- `Utils::jsonSerialize(data)`; `data` lists the entries of the map in the
order of iteration. -/
def jsonSerialize (data : StdMap String) : String :=
  String.mk ([Char.ofNat 123] ++ jsonSerializeLoop true data ++ [Char.ofNat 125])

/-- The text of `utils.cpp:436` that follows `std::regex keyValueRegex(R"(`, up
to the end of the line: the characters meant as the regular expression, and
the `)");` meant to close the literal, the call and the statement. -/
def keyValueRegexSource : List Char :=
  [quote] ++ "([^".data ++ [quote] ++ "]+)".data ++ [quote] ++ "\\s*:\\s*".data ++ [quote]
    ++ "([^".data ++ [quote] ++ "]*)".data ++ [quote] ++ ")".data ++ [quote] ++ ");".data

/-- Where a raw string literal with no delimiter, opened by `R"(`, ends: the
characters of the literal, which run up to the first `)` that a double quote
follows, and the source text after that quote. `none` when no `)` is followed
by a double quote. -/
def rawStringLiteral : List Char → Option (List Char × List Char)
  | [] => none
  | [_] => none
  | c :: d :: rest =>
    if c = ')' ∧ d = quote then some ([], rest)
    else (rawStringLiteral (d :: rest)).map fun (body, after) => (c :: body, after)

/-! ### `jsonDeserialize` with the literal of line 436 repaired

As written, the raw string literal of `utils.cpp:436` ends after the first
group of the expression (see `rawStringLiteral`), what follows it on the line
is no C++, and `Utils::jsonDeserialize` cannot be compiled. The definitions
from here to `jsonDeserialize` are not the code as written: they are the
function with the one repair that makes the line well-formed, a delimiter on
the raw string, `R"re("([^"]+)"\s*:\s*"([^"]*)")re"`, so that the literal
holds the whole expression. They serve to say what the repaired function
would do. -/

/-- The class `\s` of the regular expression: `std::isspace`. -/
def isspace (c : Char) : Bool :=
  c = ' ' || c = '\t' || c = '\n' || c = Char.ofNat 11 || c = Char.ofNat 12 || c = '\r'

/-- The characters up to the next double quote, and what follows that quote;
`none` when there is no double quote. -/
def untilQuote : List Char → Option (List Char × List Char)
  | [] => none
  | c :: s =>
    if c = quote then some ([], s)
    else (untilQuote s).map fun (taken, rest) => (c :: taken, rest)

/-- Of the repaired line, not of the code as written: a match of the
expression `"([^"]+)"\s*:\s*"([^"]*)"` that begins at the
head of `s`: the two groups and what is left of `s` after the match. Every
repetition is followed by a character outside the repeated class, so the
longest repetition is the only one that can match. -/
def matchKeyValue (s : List Char) : Option (List Char × List Char × List Char) :=
  match s with
  | [] => none
  | c :: s1 =>
    if c = quote then
      match untilQuote s1 with
      | none => none
      | some (key, s2) =>
        if key = [] then none
        else
          match s2.dropWhile isspace with
          | [] => none
          | colon :: s3 =>
            if colon = ':' then
              match s3.dropWhile isspace with
              | [] => none
              | q :: s4 =>
                if q = quote then
                  match untilQuote s4 with
                  | none => none
                  | some (value, rest) => some (key, value, rest)
                else none
            else none
    else none

/-- Of the repaired line: the matches a `std::sregex_iterator` finds in `s`,
from left to right: at each position the match that begins there, if any, and the search goes on
after it. The first argument bounds the number of steps. -/
def scanKeyValues : Nat → List Char → List (String × String)
  | 0, _ => []
  | _ + 1, [] => []
  | fuel + 1, c :: s =>
    match matchKeyValue (c :: s) with
    | some (key, value, rest) => (String.mk key, String.mk value) :: scanKeyValues fuel rest
    | none => scanKeyValues fuel s

/-- `Utils::jsonDeserialize(jsonString)` with the literal of line 436 repaired
(the function as written is ill-formed and has no behaviour):
`result[key] = value` for every match in turn. Every step of the scan consumes a character, so the length of the
string bounds the steps. -/
def jsonDeserialize (jsonString : String) : StdMap String :=
  (scanKeyValues jsonString.data.length jsonString.data).foldl
    (fun result kv => StdMap.assign result kv.1 kv.2) []

end Utils

/-! ## Properties of slugs and the text of a JSON entry -/

namespace Utils

/-- No dash is followed by another dash. -/
def NoDoubleDash (l : List Char) : Prop := l.Chain' fun a b => ¬ (a = '-' ∧ b = '-')

/-- No space, no underscore and no upper-case letter. -/
def SlugChars (l : List Char) : Prop := ∀ c ∈ l, c ≠ ' ' ∧ c ≠ '_' ∧ isupper c = false

/-- The text `jsonSerialize` writes for one entry. -/
def jsonEntry (key value : String) : List Char :=
  [quote] ++ key.data ++ [quote, ':', quote] ++ value.data ++ [quote]

end Utils

/-! # Theorems -/

/-! ## Hexadecimal rendering and webhook signatures -/

namespace Utils

set_option maxRecDepth 100000 in
theorem setwFill_streamHex_byte :
    ∀ b : Byte, setwFill 2 '0' (streamHex b.val) = byteHex b := by
  decide

set_option maxRecDepth 100000 in
theorem byteHex_isLowerHex : ∀ b : Byte, ∀ c ∈ byteHex b, isLowerHex c = true := by
  decide

theorem toHexChars_eq_flatMap (data : List Byte) :
    toHexChars data = data.flatMap byteHex := by
  induction data with
  | nil => rfl
  | cons b rest ih => simp [toHexChars, setwFill_streamHex_byte, ih]

theorem toHexChars_length (data : List Byte) :
    (toHexChars data).length = 2 * data.length := by
  induction data with
  | nil => rfl
  | cons b rest ih =>
    simp only [toHexChars, setwFill_streamHex_byte, List.length_append, ih, byteHex,
      List.length_cons, List.length_nil]
    omega

theorem toHexChars_isLowerHex (data : List Byte) :
    ∀ c ∈ toHexChars data, isLowerHex c = true := by
  intro c hc
  rw [toHexChars_eq_flatMap] at hc
  obtain ⟨b, -, hb⟩ := List.mem_flatMap.mp hc
  exact byteHex_isLowerHex b c hb

set_option maxRecDepth 100000 in
theorem lowerHexDigit_injective :
    ∀ a b : Fin 16, lowerHexDigit a.val = lowerHexDigit b.val → a = b := by
  decide

theorem byteHex_injective (a b : Byte) (h : byteHex a = byteHex b) : a = b := by
  simp only [byteHex, List.cons.injEq, and_true] at h
  have h1 := lowerHexDigit_injective ⟨a.val / 16, by omega⟩ ⟨b.val / 16, by omega⟩ h.1
  have h2 := lowerHexDigit_injective ⟨a.val % 16, by omega⟩ ⟨b.val % 16, by omega⟩ h.2
  simp only [Fin.mk.injEq] at h1 h2
  apply Fin.ext
  omega

/-- Distinct byte vectors have distinct renderings: the padding to two digits
keeps the bytes apart. -/
theorem toHex_injective (data data' : List Byte) (h : toHex data = toHex data') :
    data = data' := by
  have hc : toHexChars data = toHexChars data' := congrArg String.data h
  clear h
  induction data generalizing data' with
  | nil =>
    cases data' with
    | nil => rfl
    | cons b rest =>
      have := congrArg List.length hc
      simp [toHexChars_length] at this
  | cons a rest ih =>
    cases data' with
    | nil =>
      have := congrArg List.length hc
      simp [toHexChars_length] at this
    | cons b rest' =>
      simp only [toHexChars, setwFill_streamHex_byte] at hc
      have hlen : (byteHex a).length = (byteHex b).length := rfl
      obtain ⟨h1, h2⟩ := List.append_inj hc hlen
      rw [byteHex_injective a b h1, ih rest' h2]

/-- A payload is accepted for the signature of another payload exactly when the
keyed hash gives both the same digest. -/
theorem verifyWebhookSignature_iff_digest_eq (hmac : Hmac) (payload payload' secret : String) :
    verifyWebhookSignature hmac payload' (createWebhookSignature hmac payload secret) secret = true
      ↔ hmac secret payload = hmac secret payload' := by
  simp only [verifyWebhookSignature, createWebhookSignature, beq_iff_eq]
  constructor
  · exact toHex_injective _ _
  · intro h; rw [h]

/-- C1: for every payload and every secret, verifying the payload against the
signature that `createWebhookSignature` makes for it under the same secret
returns true, whatever deterministic function the keyed hash is. -/
theorem verifyWebhookSignature_createWebhookSignature (hmac : Hmac) (payload secret : String) :
    verifyWebhookSignature hmac payload (createWebhookSignature hmac payload secret) secret
      = true := by
  simp [verifyWebhookSignature]

/-- C2, refuted at the payload `ping` and the secret `whsec`: whatever the
keyed hash is, the signature with `sha256=` in front of it is not accepted. -/
theorem verifyWebhookSignature_sha256_tag_example :
    ¬ ∃ hmac : Hmac,
      verifyWebhookSignature hmac "ping"
        ("sha256=" ++ createWebhookSignature hmac "ping" "whsec") "whsec" = true := by
  rintro ⟨hmac, h⟩
  simp only [verifyWebhookSignature, beq_iff_eq] at h
  have hlen := congrArg String.length h
  simp only [String.length_append, add_left_eq_self] at hlen
  exact absurd hlen (by decide)

/-- C2, as the code has it: `verifyWebhookSignature` accepts a signature exactly
when it is the bare hexadecimal signature; with `sha256=` in front of it the
signature of the payload is refused, for every payload and secret. -/
theorem verifyWebhookSignature_accepts_bare_hex_only (hmac : Hmac)
    (payload signature secret : String) :
    (verifyWebhookSignature hmac payload signature secret = true
        ↔ signature = createWebhookSignature hmac payload secret)
    ∧ verifyWebhookSignature hmac payload
        ("sha256=" ++ createWebhookSignature hmac payload secret) secret = false := by
  constructor
  · simp [verifyWebhookSignature]
  · simp only [verifyWebhookSignature, beq_eq_false_iff_ne, ne_eq]
    intro h
    have hlen := congrArg String.length h
    simp only [String.length_append, add_left_eq_self] at hlen
    exact absurd hlen (by decide)

/-- C3: when the keyed hash yields 32 bytes, `createWebhookSignature` returns
exactly 64 characters, the two digits `b / 16`, `b % 16` of each byte in byte
order, every character in `0-9` or `a-f`; and for every byte vector `toHex`
has twice as many characters as there are bytes and is the concatenation of
these two digits per byte. -/
theorem createWebhookSignature_lowercase_hex (hmac : Hmac) (payload secret : String)
    (hlen : (hmac secret payload).length = 32) :
    (createWebhookSignature hmac payload secret).length = 64
    ∧ (createWebhookSignature hmac payload secret).data = (hmac secret payload).flatMap byteHex
    ∧ (∀ c ∈ (createWebhookSignature hmac payload secret).data, isLowerHex c = true)
    ∧ ∀ data : List Byte,
        (toHex data).length = 2 * data.length
        ∧ (toHex data).data
            = data.flatMap fun b => [lowerHexDigit (b.val / 16), lowerHexDigit (b.val % 16)] := by
  refine ⟨?_, ?_, ?_, ?_⟩
  · simp [createWebhookSignature, toHex, String.length, toHexChars_length, hlen]
  · simp [createWebhookSignature, toHex, toHexChars_eq_flatMap]
  · intro c hc
    exact toHexChars_isLowerHex _ c hc
  · intro data
    refine ⟨by simp [toHex, String.length, toHexChars_length], ?_⟩
    simp only [toHex, toHexChars_eq_flatMap]
    rfl

/-- C3 at a concrete input: the payload `ping` under the secret `whsec` with the
stand-in hash. -/
theorem createWebhookSignature_lowercase_hex_witness :
    (sampleHmac "whsec" "ping").length = 32
    ∧ (createWebhookSignature sampleHmac "ping" "whsec").length = 64
    ∧ (∀ c ∈ (createWebhookSignature sampleHmac "ping" "whsec").data, isLowerHex c = true)
    ∧ toHex [0, 9, 10, 171, 255] = "00090aabff" :=
  have h := createWebhookSignature_lowercase_hex sampleHmac "ping" "whsec" (by decide)
  ⟨by decide, h.1, h.2.2.1, by decide⟩

end Utils

/-! ## Timestamp tolerance -/

/-- C5, refuted for `Utils::verifyWebhookSignature`: whatever the keyed hash is,
the function used as the entry point under the secret `whsec` accepts the
correctly signed payload `ping` at time 1000 although its timestamp 0 is more
than 300 seconds old. -/
theorem verifyWebhookSignatureEntry_accepts_stale :
    ¬ ∃ hmac : Hmac,
      RejectsStale WebhookHandler.epochSeconds 300 (Utils.verifyWebhookSignatureEntry hmac "whsec") := by
  rintro ⟨hmac, h⟩
  have h1 := h "ping" (Utils.createWebhookSignature hmac "ping" "whsec") "0" 1000 0
    (by decide) (by decide)
  simp [Utils.verifyWebhookSignatureEntry, Utils.verifyWebhookSignature] at h1

/-- C5, as the code and the specification have it: the entry points of
`WebhookHandler` (`processWebhook`, `verifySignature`, and `verifyTimestamp`
with the handler's tolerance) refuse every delivery whose timestamp is more
than the tolerance away from the time of the check, whatever the signature,
and the failure is `StaleTimestamp`; `Utils::verifyWebhookSignature` takes no
timestamp and accepts exactly the signature recomputed from payload and
secret. -/
theorem webhookHandler_rejects_stale (hmac : Hmac) (parseInstant : String → Option Int)
    (h : WebhookHandler) :
    RejectsStale parseInstant h.tolerance_seconds_
        (fun payload signature timestamp now =>
          h.processWebhook hmac parseInstant now payload signature timestamp)
    ∧ RejectsStale parseInstant h.tolerance_seconds_
        (fun payload signature timestamp now =>
          h.verifySignature hmac parseInstant now payload signature timestamp)
    ∧ RejectsStale parseInstant h.tolerance_seconds_
        (fun _ _ timestamp now =>
          WebhookHandler.verifyTimestamp parseInstant now timestamp h.tolerance_seconds_)
    ∧ (∀ (payload signature timestamp : String) (now t : Int),
        parseInstant timestamp = some t → h.tolerance_seconds_ < |now - t| →
          WebhookHandler.verify hmac parseInstant now payload signature timestamp h.secret_
            h.tolerance_seconds_ = .error .StaleTimestamp)
    ∧ ∀ payload signature : String,
        Utils.verifyWebhookSignature hmac payload signature h.secret_ = true
          ↔ signature = Utils.createWebhookSignature hmac payload h.secret_ := by
  refine ⟨?_, ?_, ?_, ?_, ?_⟩
  · intro payload signature timestamp now t hparse hstale
    simp [WebhookHandler.processWebhook, WebhookHandler.verify, hparse, hstale]
  · intro payload signature timestamp now t hparse hstale
    simp [WebhookHandler.verifySignature, WebhookHandler.verify, hparse, hstale]
  · intro payload signature timestamp now t hparse hstale
    simp [WebhookHandler.verifyTimestamp, hparse, hstale]
  · intro payload signature timestamp now t hparse hstale
    simp [WebhookHandler.verify, hparse, hstale]
  · intro payload signature
    simp [Utils.verifyWebhookSignature]

/-- C5 at a concrete input: a handler with the secret `whsec` and the default
tolerance refuses, at time 1000, the correctly signed payload `ping` whose
timestamp is 0. -/
theorem webhookHandler_rejects_stale_witness :
    WebhookHandler.epochSeconds "0" = some 0
    ∧ WebhookHandler.defaultToleranceSeconds < |(1000 : Int) - 0|
    ∧ WebhookHandler.processWebhook ⟨"whsec", WebhookHandler.defaultToleranceSeconds⟩ sampleHmac
        WebhookHandler.epochSeconds 1000 "ping"
        (Utils.createWebhookSignature sampleHmac "ping" "whsec") "0" = false :=
  ⟨by decide, by decide,
    (webhookHandler_rejects_stale sampleHmac WebhookHandler.epochSeconds
      ⟨"whsec", WebhookHandler.defaultToleranceSeconds⟩).1 "ping"
      (Utils.createWebhookSignature sampleHmac "ping" "whsec") "0" 1000 0 (by decide) (by decide)⟩

/-! ## Machine integers and traces -/

theorem wrapInt32_of_fits {x : Int} (h : fitsInt32 x) : wrapInt32 x = x := by
  unfold fitsInt32 at h
  unfold wrapInt32
  omega

theorem fitsInt32_double_of_pow (d : Int) (k : Nat) (h : fitsInt32 (d * 2 ^ (k + 1))) :
    fitsInt32 (d * 2) := by
  unfold fitsInt32 at *
  have hp : (1 : Int) ≤ 2 ^ k := one_le_pow₀ (by norm_num)
  have he : d * 2 ^ (k + 1) = d * 2 * 2 ^ k := by ring
  rw [he] at h
  constructor
  · by_contra hc
    push_neg at hc
    nlinarith
  · by_contra hc
    push_neg at hc
    nlinarith

@[simp] theorem callsIn_nil : callsIn [] = 0 := rfl
@[simp] theorem sleepsIn_nil : sleepsIn [] = [] := rfl

theorem callsIn_append (s t : List Event) : callsIn (s ++ t) = callsIn s + callsIn t := by
  simp [callsIn]

theorem sleepsIn_append (s t : List Event) : sleepsIn (s ++ t) = sleepsIn s ++ sleepsIn t := by
  simp [sleepsIn]

@[simp] theorem callsIn_invoke_cons (t : List Event) : callsIn (.invoke :: t) = callsIn t + 1 := by
  simp [callsIn, Event.isInvoke]

@[simp] theorem callsIn_sleep_cons (d : Int) (t : List Event) : callsIn (.sleep d :: t) = callsIn t := by
  simp [callsIn, Event.isInvoke]

@[simp] theorem sleepsIn_invoke_cons (t : List Event) : sleepsIn (.invoke :: t) = sleepsIn t := by
  simp [sleepsIn, Event.sleepDuration]

@[simp] theorem sleepsIn_sleep_cons (d : Int) (t : List Event) :
    sleepsIn (.sleep d :: t) = d :: sleepsIn t := by
  simp [sleepsIn, Event.sleepDuration]

@[simp] theorem Run.calls_after {ρ : Type} (events : List Event) (r : Run ρ) :
    (r.after events).calls = callsIn events + r.calls := by
  simp [Run.after, Run.calls, callsIn_append]

@[simp] theorem Run.sleeps_after {ρ : Type} (events : List Event) (r : Run ρ) :
    (r.after events).sleeps = sleepsIn events ++ r.sleeps := by
  simp [Run.after, Run.sleeps, sleepsIn_append]

@[simp] theorem Run.result_after {ρ : Type} (events : List Event) (r : Run ρ) :
    (r.after events).result = r.result := rfl

@[simp] theorem Run.trace_after {ρ : Type} (events : List Event) (r : Run ρ) :
    (r.after events).trace = events ++ r.trace := rfl

namespace Utils

section RetryLoop

variable {ε α : Type} (func : Nat → Outcome ε α) (maxRetries : Int)

theorem retryLoop_exit (fuel : Nat) (i delay : Int) (last : Option ε) (n : Nat)
    (h : ¬ i < maxRetries) :
    retryLoop func maxRetries fuel i delay last n = ⟨.threw last, []⟩ := by
  cases fuel <;> simp [retryLoop, h]

theorem retryLoop_returned (fuel : Nat) (i delay : Int) (last : Option ε) (n : Nat) (v : α)
    (h : i < maxRetries) (hf : func n = .returned v) :
    retryLoop func maxRetries (fuel + 1) i delay last n = ⟨.returned v, [.invoke]⟩ := by
  simp [retryLoop, h, hf]

theorem retryLoop_threw (fuel : Nat) (i delay : Int) (last : Option ε) (n : Nat) (e : ε)
    (h : i < maxRetries - 1) (hf : func n = .threw e) :
    retryLoop func maxRetries (fuel + 1) i delay last n
      = (retryLoop func maxRetries fuel (i + 1) (wrapInt32 (delay * 2)) (some e) (n + 1)).after
          [.invoke, .sleep delay] := by
  have h1 : i < maxRetries := by omega
  simp [retryLoop, h, h1, hf]

theorem retryLoop_threw_final (fuel : Nat) (i delay : Int) (last : Option ε) (n : Nat) (e : ε)
    (h : i < maxRetries) (h1 : ¬ i < maxRetries - 1) (hf : func n = .threw e) :
    retryLoop func maxRetries (fuel + 1) i delay last n = ⟨.threw (some e), [.invoke]⟩ := by
  have h2 : ¬ i + 1 < maxRetries := by omega
  simp [retryLoop, h, h1, hf, retryLoop_exit func maxRetries fuel (i + 1) delay (some e) (n + 1) h2,
    Run.after]

/-- The first `k` attempts, all failing and none of them the last one allowed. -/
theorem retryLoop_failures (k : Nat) :
    ∀ (fuel : Nat) (i delay : Int) (last : Option ε) (n : Nat),
      (∀ j, j < k → ∃ e, func (n + j) = .threw e) → i + k < maxRetries → k ≤ fuel →
      ∃ (last' : Option ε) (delay' : Int),
        retryLoop func maxRetries fuel i delay last n
          = (retryLoop func maxRetries (fuel - k) (i + k) delay' last' (n + k)).after
              (backoffTrace delay k) := by
  induction k with
  | zero =>
    intro fuel i delay last n _ _ _
    exact ⟨last, delay, by simp [backoffTrace, Run.after]⟩
  | succ k ih =>
    intro fuel i delay last n hfail hi hfuel
    obtain ⟨fuel, rfl⟩ : ∃ f, fuel = f + 1 := ⟨fuel - 1, by omega⟩
    obtain ⟨e, he⟩ := hfail 0 (by omega)
    have hstep := retryLoop_threw func maxRetries fuel i delay last n e (by omega) he
    obtain ⟨last', delay', hrest⟩ := ih fuel (i + 1) (wrapInt32 (delay * 2)) (some e) (n + 1)
      (fun j hj => by
        obtain ⟨e', he'⟩ := hfail (j + 1) (by omega)
        exact ⟨e', by rw [← he']; congr 1; omega⟩)
      (by push_cast at hi ⊢; omega) (by omega)
    refine ⟨last', delay', ?_⟩
    rw [hstep, hrest]
    have e1 : fuel + 1 - (k + 1) = fuel - k := by omega
    have e2 : i + 1 + (k : Int) = i + ((k + 1 : Nat) : Int) := by push_cast; ring
    have e3 : n + 1 + k = n + (k + 1) := by omega
    rw [e1, e2, e3]
    simp [Run.after, backoffTrace]

theorem retryLoop_fail_then_return (k : Nat) (v : α) (fuel : Nat) (i delay : Int)
    (last : Option ε) (n : Nat) (hfail : ∀ j, j < k → ∃ e, func (n + j) = .threw e)
    (hok : func (n + k) = .returned v) (hi : i + k < maxRetries) (hfuel : k < fuel) :
    retryLoop func maxRetries fuel i delay last n
      = ⟨.returned v, backoffTrace delay k ++ [.invoke]⟩ := by
  obtain ⟨last', delay', h⟩ :=
    retryLoop_failures func maxRetries k fuel i delay last n hfail hi (by omega)
  obtain ⟨f, hf⟩ : ∃ f, fuel - k = f + 1 := ⟨fuel - k - 1, by omega⟩
  rw [h, hf, retryLoop_returned func maxRetries f (i + k) delay' last' (n + k) v hi hok]
  rfl

theorem retryLoop_all_fail (k : Nat) (e : ε) (fuel : Nat) (i delay : Int)
    (last : Option ε) (n : Nat) (hfail : ∀ j, j < k → ∃ e, func (n + j) = .threw e)
    (hlast : func (n + k) = .threw e) (hi : i + k + 1 = maxRetries) (hfuel : k < fuel) :
    retryLoop func maxRetries fuel i delay last n
      = ⟨.threw (some e), backoffTrace delay k ++ [.invoke]⟩ := by
  obtain ⟨last', delay', h⟩ :=
    retryLoop_failures func maxRetries k fuel i delay last n hfail (by omega) (by omega)
  obtain ⟨f, hf⟩ : ∃ f, fuel - k = f + 1 := ⟨fuel - k - 1, by omega⟩
  rw [h, hf, retryLoop_threw_final func maxRetries f (i + k) delay' last' (n + k) e (by omega)
    (by omega) hlast]
  rfl

theorem retryLoop_calls_le (fuel : Nat) :
    ∀ (i delay : Int) (last : Option ε) (n : Nat),
      (retryLoop func maxRetries fuel i delay last n).calls ≤ fuel := by
  induction fuel with
  | zero => intro i delay last n; simp [retryLoop, Run.calls]
  | succ fuel ih =>
    intro i delay last n
    unfold retryLoop
    split
    · split
      · simp [Run.calls]
      · split
        · have := ih (i + 1) (wrapInt32 (delay * 2)) (some ‹ε›) (n + 1)
          simp only [Run.calls_after, callsIn_invoke_cons, callsIn_sleep_cons, callsIn_nil]
          omega
        · have := ih (i + 1) delay (some ‹ε›) (n + 1)
          simp only [Run.calls_after, callsIn_invoke_cons, callsIn_nil]
          omega
    · simp [Run.calls]

/-- A run of the loop that makes an iteration ends with an invocation. -/
theorem retryLoop_getLast (fuel : Nat) :
    ∀ (i delay : Int) (last : Option ε) (n : Nat), i < maxRetries → maxRetries ≤ i + (fuel + 1) →
      (retryLoop func maxRetries (fuel + 1) i delay last n).trace.getLast? = some .invoke := by
  induction fuel with
  | zero =>
    intro i delay last n hi hfuel
    unfold retryLoop
    simp only [hi, if_true]
    split
    · rfl
    · rw [if_neg (by push_cast at hfuel; omega)]
      simp [retryLoop, Run.after]
  | succ fuel ih =>
    intro i delay last n hi hfuel
    unfold retryLoop
    simp only [hi, if_true]
    split
    · rfl
    · split
      · rename_i h
        have := ih (i + 1) (wrapInt32 (delay * 2)) (some ‹ε›) (n + 1) (by omega)
          (by push_cast at hfuel ⊢; omega)
        rw [Run.trace_after, List.getLast?_append, this]
        rfl
      · rename_i h
        have h2 : ¬ i + 1 < maxRetries := by omega
        rw [retryLoop_exit func maxRetries (fuel + 1) (i + 1) delay _ (n + 1) h2]
        rfl

end RetryLoop

theorem backoffTrace_length (k : Nat) : ∀ delay : Int, (backoffTrace delay k).length = 2 * k := by
  induction k with
  | zero => intro delay; rfl
  | succ k ih => intro delay; simp [backoffTrace, ih]; omega

theorem callsIn_backoffTrace (k : Nat) : ∀ delay : Int, callsIn (backoffTrace delay k) = k := by
  induction k with
  | zero => intro delay; rfl
  | succ k ih => intro delay; simp [backoffTrace, ih]

theorem sleepsIn_backoffTrace_length (k : Nat) :
    ∀ delay : Int, (sleepsIn (backoffTrace delay k)).length = k := by
  induction k with
  | zero => intro delay; rfl
  | succ k ih => intro delay; simp [backoffTrace, ih]

theorem exactBackoffTrace_succ (delay : Int) (k : Nat) :
    exactBackoffTrace delay (k + 1)
      = .invoke :: .sleep delay :: exactBackoffTrace (delay * 2) k := by
  simp only [exactBackoffTrace, List.range_succ_eq_map, List.flatMap_cons, List.flatMap_map,
    pow_zero, mul_one, List.cons_append, List.nil_append]
  congr 2
  apply congrArg
  funext j
  have h : delay * 2 ^ (j + 1) = delay * 2 * 2 ^ j := by ring
  simp only [Function.comp, Nat.succ_eq_add_one, h]

/-- As long as the last delay fits in an `int`, the doubling is exact. -/
theorem backoffTrace_eq_exact (k : Nat) :
    ∀ delay : Int, fitsInt32 (delay * 2 ^ (k - 1)) →
      backoffTrace delay k = exactBackoffTrace delay k := by
  induction k with
  | zero => intro delay _; rfl
  | succ k ih =>
    intro delay hfit
    rw [exactBackoffTrace_succ, backoffTrace]
    cases k with
    | zero => rfl
    | succ k =>
      simp only [Nat.add_sub_cancel] at hfit
      have h2 : fitsInt32 (delay * 2) := fitsInt32_double_of_pow delay k hfit
      rw [wrapInt32_of_fits h2]
      rw [ih (delay * 2) (by
        simp only [Nat.add_sub_cancel]
        have : delay * 2 * 2 ^ k = delay * 2 ^ (k + 1) := by ring
        rw [this]; exact hfit)]

theorem sleepsIn_exactBackoffTrace (delay : Int) (k : Nat) :
    sleepsIn (exactBackoffTrace delay k) = (List.range k).map fun j => delay * 2 ^ j := by
  induction k generalizing delay with
  | zero => rfl
  | succ k ih =>
    rw [exactBackoffTrace_succ]
    simp only [sleepsIn_invoke_cons, sleepsIn_sleep_cons, ih, List.range_succ_eq_map,
      List.map_cons, List.map_map, pow_zero, mul_one]
    congr 1
    apply List.map_congr_left
    intro j _
    simp only [Function.comp, Nat.succ_eq_add_one, pow_succ]
    ring

theorem pairwise_lt_doubling (delay : Int) (hpos : 0 < delay) (k : Nat) :
    ((List.range k).map fun j => delay * 2 ^ j).Pairwise (· < ·) := by
  rw [List.pairwise_map]
  refine List.Pairwise.imp ?_ (List.pairwise_lt_range k)
  intro a b hab
  have : (2 : Int) ^ a < 2 ^ b := pow_lt_pow_right₀ (by norm_num) hab
  exact mul_lt_mul_of_pos_left this hpos

end Utils

namespace AdvancedLicenseManager

section ValidateLoop

variable {L : Type} [Inhabited L] (validateLicense : String → Nat → Result L)
  (licenseKey : String) (maxRetries : Int)

theorem validateLoop_return (fuel : Nat) (attempt : Int) (n : Nat) (h : attempt ≤ maxRetries)
    (hret : isNetworkFailure (validateLicense licenseKey n) = false ∨ attempt = maxRetries) :
    validateLoop validateLicense licenseKey maxRetries (fuel + 1) attempt n
      = ⟨validateLicense licenseKey n, [.invoke]⟩ := by
  unfold validateLoop
  simp only [h, if_true]
  split
  · rfl
  · rename_i hs
    split
    · rfl
    · rename_i hc
      exfalso
      simp only [Bool.or_eq_true, bne_iff_ne, ne_eq, beq_iff_eq, not_or, not_not] at hc
      rcases hret with hnet | heq
      · simp [isNetworkFailure, hs, hc.1] at hnet
      · exact hc.2 heq

theorem validateLoop_retry (fuel : Nat) (attempt : Int) (n : Nat) (h : attempt < maxRetries)
    (hnet : isNetworkFailure (validateLicense licenseKey n) = true) :
    validateLoop validateLicense licenseKey maxRetries (fuel + 1) attempt n
      = (validateLoop validateLicense licenseKey maxRetries fuel (attempt + 1) (n + 1)).after
          [.invoke, .sleep (1000 * shiftLeftOne attempt)] := by
  simp only [isNetworkFailure, Bool.and_eq_true, Bool.not_eq_true', beq_iff_eq] at hnet
  have h1 : attempt ≤ maxRetries := by omega
  have h2 : ¬ attempt = maxRetries := by omega
  conv_lhs => unfold validateLoop
  simp [h1, h2, hnet.1, hnet.2]

/-- The first `k` attempts, all network failures and none of them the last one
allowed. -/
theorem validateLoop_failures (k : Nat) :
    ∀ (fuel : Nat) (attempt : Int) (n : Nat),
      (∀ j, j < k → isNetworkFailure (validateLicense licenseKey (n + j)) = true) →
      attempt + k ≤ maxRetries → k ≤ fuel →
      validateLoop validateLicense licenseKey maxRetries fuel attempt n
        = (validateLoop validateLicense licenseKey maxRetries (fuel - k) (attempt + k) (n + k)).after
            (networkRetryTrace attempt k) := by
  induction k with
  | zero =>
    intro fuel attempt n _ _ _
    simp [networkRetryTrace, Run.after]
  | succ k ih =>
    intro fuel attempt n hnet hi hfuel
    obtain ⟨fuel, rfl⟩ : ∃ f, fuel = f + 1 := ⟨fuel - 1, by omega⟩
    have hstep := validateLoop_retry validateLicense licenseKey maxRetries fuel attempt n
      (by push_cast at hi; omega) (hnet 0 (by omega))
    have hrest := ih fuel (attempt + 1) (n + 1)
      (fun j hj => by
        have := hnet (j + 1) (by omega)
        rw [← this]; congr 2; omega)
      (by push_cast at hi ⊢; omega) (by omega)
    rw [hstep, hrest]
    have e1 : fuel + 1 - (k + 1) = fuel - k := by omega
    have e2 : attempt + 1 + (k : Int) = attempt + ((k + 1 : Nat) : Int) := by push_cast; ring
    have e3 : n + 1 + k = n + (k + 1) := by omega
    rw [e1, e2, e3]
    simp [Run.after, networkRetryTrace]

theorem validateLoop_calls_le (fuel : Nat) :
    ∀ (attempt : Int) (n : Nat),
      (validateLoop validateLicense licenseKey maxRetries fuel attempt n).calls ≤ fuel := by
  induction fuel with
  | zero => intro attempt n; simp [validateLoop, Run.calls]
  | succ fuel ih =>
    intro attempt n
    unfold validateLoop
    split
    · simp only
      split
      · simp [Run.calls]
      · split
        · simp [Run.calls]
        · have := ih (attempt + 1) (n + 1)
          simp only [Run.calls_after, callsIn_invoke_cons, callsIn_sleep_cons, callsIn_nil]
          omega
    · simp [Run.calls]

/-- An invocation that is followed by another one returned a network failure. -/
theorem validateLoop_retried_is_network (fuel : Nat) :
    ∀ (attempt : Int) (n j : Nat),
      j + 1 < (validateLoop validateLicense licenseKey maxRetries fuel attempt n).calls →
        isNetworkFailure (validateLicense licenseKey (n + j)) = true := by
  induction fuel with
  | zero => intro attempt n j h; simp [validateLoop, Run.calls] at h
  | succ fuel ih =>
    intro attempt n j h
    unfold validateLoop at h
    split at h
    · simp only at h
      split at h
      · simp [Run.calls] at h
      · rename_i hs
        split at h
        · simp [Run.calls] at h
        · rename_i hc
          simp only [Bool.or_eq_true, bne_iff_ne, ne_eq, beq_iff_eq, not_or, not_not] at hc
          cases j with
          | zero => simp [isNetworkFailure, hs, hc.1]
          | succ j =>
            simp only [Run.calls_after, callsIn_invoke_cons, callsIn_sleep_cons, callsIn_nil] at h
            have := ih (attempt + 1) (n + 1) j (by omega)
            rw [← this]; congr 2; omega
    · simp [Run.calls] at h

end ValidateLoop

theorem networkRetryTrace_length (k : Nat) :
    ∀ attempt : Int, (networkRetryTrace attempt k).length = 2 * k := by
  induction k with
  | zero => intro attempt; rfl
  | succ k ih => intro attempt; simp [networkRetryTrace, ih]; omega

theorem callsIn_networkRetryTrace (k : Nat) :
    ∀ attempt : Int, callsIn (networkRetryTrace attempt k) = k := by
  induction k with
  | zero => intro attempt; rfl
  | succ k ih => intro attempt; simp [networkRetryTrace, ih]

theorem sleepsIn_networkRetryTrace_length (k : Nat) :
    ∀ attempt : Int, (sleepsIn (networkRetryTrace attempt k)).length = k := by
  induction k with
  | zero => intro attempt; rfl
  | succ k ih => intro attempt; simp [networkRetryTrace, ih]

end AdvancedLicenseManager

namespace Utils

theorem retryLoop_head {ε α : Type} (func : Nat → Outcome ε α) (maxRetries : Int) (fuel : Nat)
    (i delay : Int) (last : Option ε) (n : Nat) (h : i < maxRetries) :
    (retryLoop func maxRetries (fuel + 1) i delay last n).trace.head? = some .invoke := by
  unfold retryLoop
  simp only [h, if_true]
  split
  · rfl
  · split <;> rfl

theorem retryLoop_mapError {ε ε' α : Type} (func : Nat → Outcome ε α) (g : ε → ε')
    (maxRetries : Int) (fuel : Nat) :
    ∀ (i delay : Int) (last : Option ε) (last' : Option ε') (n : Nat),
      (retryLoop (fun m => (func m).mapError g) maxRetries fuel i delay last' n).trace
        = (retryLoop func maxRetries fuel i delay last n).trace := by
  induction fuel with
  | zero => intro i delay last last' n; rfl
  | succ fuel ih =>
    intro i delay last last' n
    by_cases h : i < maxRetries
    · cases hf : func n with
      | returned v =>
        rw [retryLoop_returned func maxRetries fuel i delay last n v h hf,
          retryLoop_returned _ maxRetries fuel i delay last' n v h
            (by simp only [hf, Outcome.mapError])]
      | threw e =>
        by_cases h1 : i < maxRetries - 1
        · rw [retryLoop_threw func maxRetries fuel i delay last n e h1 hf,
            retryLoop_threw _ maxRetries fuel i delay last' n (g e) h1
              (by simp only [hf, Outcome.mapError]),
            Run.trace_after, Run.trace_after, ih]
        · rw [retryLoop_threw_final func maxRetries fuel i delay last n e h h1 hf,
            retryLoop_threw_final _ maxRetries fuel i delay last' n (g e) h h1
              (by simp only [hf, Outcome.mapError])]
    · rw [retryLoop_exit func maxRetries (fuel + 1) i delay last n h,
        retryLoop_exit _ maxRetries (fuel + 1) i delay last' n h]

theorem exactBackoffTrace_length (delay : Int) (k : Nat) :
    (exactBackoffTrace delay k).length = 2 * k := by
  induction k generalizing delay with
  | zero => rfl
  | succ k ih => rw [exactBackoffTrace_succ]; simp [ih]; omega

theorem exactBackoffTrace_snoc (delay : Int) (k : Nat) :
    exactBackoffTrace delay (k + 1)
      = exactBackoffTrace delay k ++ [.invoke, .sleep (delay * 2 ^ k)] := by
  simp [exactBackoffTrace, List.range_succ, List.flatMap_append]

/-! ## `Utils::retryWithBackoff` -/

/-- C6, refuted at `maxRetries = 3`, `k = 2` and `initialDelayMs = 2 ^ 30`: the
operation fails twice and then returns 7; the run returns 7 after three
invocations and two sleeps, but the second delay, `2 ^ 30 * 2` stored in an
`int`, is negative, so the delays do not increase. -/
theorem retryWithBackoff_delays_wrap_example :
    (1 : Int) ≤ 3 ∧ (0 : Int) < 1073741824
    ∧ (retryWithBackoff failTwiceThenReturn 3 1073741824).result = .returned 7
    ∧ (retryWithBackoff failTwiceThenReturn 3 1073741824).calls = 3
    ∧ (retryWithBackoff failTwiceThenReturn 3 1073741824).sleeps = [1073741824, -2147483648]
    ∧ ¬ (retryWithBackoff failTwiceThenReturn 3 1073741824).sleeps.Pairwise (· < ·) := by
  decide

/-- C6, as the code has it: for every `maxRetries ≥ 1`, every `k < maxRetries`
and every operation that fails on its first `k` invocations and returns `v` on
the next, `retryWithBackoff` returns `v`, invokes the operation exactly `k + 1`
times and sleeps exactly `k` times, each failed attempt being followed by one
sleep; when the last delay `initialDelayMs * 2 ^ (k - 1)` fits in an `int` the
delays are `initialDelayMs * 2 ^ j` for `j < k`, strictly increasing when
`initialDelayMs > 0`. -/
theorem retryWithBackoff_fail_then_succeed {ε α : Type} (func : Nat → Outcome ε α)
    (maxRetries initialDelayMs : Int) (k : Nat) (v : α)
    (hmax : 1 ≤ maxRetries) (hk : (k : Int) < maxRetries)
    (hfail : ∀ j, j < k → ∃ e, func j = .threw e) (hok : func k = .returned v) :
    (retryWithBackoff func maxRetries initialDelayMs).result = .returned v
    ∧ (retryWithBackoff func maxRetries initialDelayMs).calls = k + 1
    ∧ (retryWithBackoff func maxRetries initialDelayMs).sleeps.length = k
    ∧ (retryWithBackoff func maxRetries initialDelayMs).trace
        = backoffTrace initialDelayMs k ++ [.invoke]
    ∧ (fitsInt32 (initialDelayMs * 2 ^ (k - 1)) →
        (retryWithBackoff func maxRetries initialDelayMs).sleeps
            = (List.range k).map (fun j => initialDelayMs * 2 ^ j)
        ∧ (0 < initialDelayMs →
            (retryWithBackoff func maxRetries initialDelayMs).sleeps.Pairwise (· < ·))) := by
  have hrun : retryWithBackoff func maxRetries initialDelayMs
      = ⟨.returned v, backoffTrace initialDelayMs k ++ [.invoke]⟩ := by
    unfold retryWithBackoff
    exact retryLoop_fail_then_return func maxRetries k v maxRetries.toNat 0 initialDelayMs none 0
      (fun j hj => by simpa using hfail j hj) (by simpa using hok) (by omega) (by omega)
  have hsleeps : (retryWithBackoff func maxRetries initialDelayMs).sleeps
      = sleepsIn (backoffTrace initialDelayMs k) := by
    simp [hrun, Run.sleeps, sleepsIn_append]
  refine ⟨by rw [hrun], ?_, ?_, by rw [hrun], ?_⟩
  · simp [hrun, Run.calls, callsIn_append, callsIn_backoffTrace]
  · rw [hsleeps, sleepsIn_backoffTrace_length]
  · intro hfit
    have hexact : (retryWithBackoff func maxRetries initialDelayMs).sleeps
        = (List.range k).map (fun j => initialDelayMs * 2 ^ j) := by
      rw [hsleeps, backoffTrace_eq_exact k initialDelayMs hfit, sleepsIn_exactBackoffTrace]
    refine ⟨hexact, fun hpos => ?_⟩
    rw [hexact]
    exact pairwise_lt_doubling initialDelayMs hpos k

/-- C6 at its test case: `maxRetries = 3`, `k = 2`, the default
initial delay of 1000 ms. -/
theorem retryWithBackoff_fail_then_succeed_witness :
    (1 : Int) ≤ 3 ∧ ((2 : Nat) : Int) < 3
    ∧ (retryWithBackoff failTwiceThenReturn 3 defaultInitialDelayMs).result = .returned 7
    ∧ (retryWithBackoff failTwiceThenReturn 3 defaultInitialDelayMs).calls = 2 + 1
    ∧ (retryWithBackoff failTwiceThenReturn 3 defaultInitialDelayMs).trace
        = [.invoke, .sleep 1000, .invoke, .sleep 2000, .invoke]
    ∧ (retryWithBackoff failTwiceThenReturn 3 defaultInitialDelayMs).sleeps.Pairwise (· < ·) :=
  have h := retryWithBackoff_fail_then_succeed failTwiceThenReturn 3 defaultInitialDelayMs 2 7
    (by decide) (by decide)
    (fun j hj => ⟨NetworkException "connection refused", by simp [failTwiceThenReturn, hj]⟩)
    (by decide)
  ⟨by decide, by decide, h.1, h.2.1, by decide, (h.2.2.2.2 (by decide)).2 (by decide)⟩

/-- C7: in `retryWithBackoff`, when the first `a` attempts fail, `1 ≤ a <
maxRetries`, and `initialDelayMs * 2 ^ (a - 1)` fits in an `int`, each of these
attempts is followed at once by a sleep, the one after attempt `a` lasting
exactly `initialDelayMs * 2 ^ (a - 1)` milliseconds. A run never ends with a
sleep, and when all `maxRetries` attempts fail there are exactly `maxRetries`
invocations and `maxRetries - 1` sleeps, the last event being the final
attempt. -/
theorem retryWithBackoff_sleep_after_attempt {ε α : Type} (func : Nat → Outcome ε α)
    (maxRetries initialDelayMs : Int) :
    (∀ a : Nat, 1 ≤ a → (a : Int) < maxRetries → (∀ j, j < a → ∃ e, func j = .threw e) →
      fitsInt32 (initialDelayMs * 2 ^ (a - 1)) →
        (retryWithBackoff func maxRetries initialDelayMs).trace.take (2 * a)
            = exactBackoffTrace initialDelayMs a
        ∧ (retryWithBackoff func maxRetries initialDelayMs).trace[2 * a - 2]? = some .invoke
        ∧ (retryWithBackoff func maxRetries initialDelayMs).trace[2 * a - 1]?
            = some (.sleep (initialDelayMs * 2 ^ (a - 1)))
        ∧ (retryWithBackoff func maxRetries initialDelayMs).sleeps[a - 1]?
            = some (initialDelayMs * 2 ^ (a - 1)))
    ∧ (1 ≤ maxRetries →
        (retryWithBackoff func maxRetries initialDelayMs).trace.getLast? = some .invoke)
    ∧ (1 ≤ maxRetries → (∀ j : Nat, (j : Int) < maxRetries → ∃ e, func j = .threw e) →
        ((retryWithBackoff func maxRetries initialDelayMs).calls : Int) = maxRetries
        ∧ ((retryWithBackoff func maxRetries initialDelayMs).sleeps.length : Int) = maxRetries - 1
        ∧ (retryWithBackoff func maxRetries initialDelayMs).trace
            = backoffTrace initialDelayMs (maxRetries.toNat - 1) ++ [.invoke]) := by
  refine ⟨?_, ?_, ?_⟩
  · intro a ha ham hfail hfit
    obtain ⟨last', delay', hrun⟩ := retryLoop_failures func maxRetries a maxRetries.toNat 0
      initialDelayMs none 0 (fun j hj => by simpa using hfail j hj) (by omega) (by omega)
    have htrace : (retryWithBackoff func maxRetries initialDelayMs).trace
        = exactBackoffTrace initialDelayMs a
          ++ (retryLoop func maxRetries (maxRetries.toNat - a) (0 + a) delay' last' (0 + a)).trace := by
      unfold retryWithBackoff
      rw [hrun, Run.trace_after, backoffTrace_eq_exact a initialDelayMs hfit]
    obtain ⟨b, rfl⟩ : ∃ b, a = b + 1 := ⟨a - 1, by omega⟩
    simp only [Nat.add_sub_cancel] at hfit ⊢
    have hlen : (exactBackoffTrace initialDelayMs b).length = 2 * b :=
      exactBackoffTrace_length initialDelayMs b
    refine ⟨?_, ?_, ?_, ?_⟩
    · rw [htrace]
      exact List.take_left' (exactBackoffTrace_length initialDelayMs (b + 1))
    · rw [htrace, exactBackoffTrace_snoc, List.append_assoc]
      have : 2 * (b + 1) - 2 = (exactBackoffTrace initialDelayMs b).length := by omega
      rw [this, List.getElem?_append_right (le_refl _)]
      simp
    · rw [htrace, exactBackoffTrace_snoc, List.append_assoc]
      have : 2 * (b + 1) - 1 = (exactBackoffTrace initialDelayMs b).length + 1 := by omega
      rw [this, List.getElem?_append_right (by omega)]
      simp
    · have hs : (retryWithBackoff func maxRetries initialDelayMs).sleeps
          = sleepsIn (exactBackoffTrace initialDelayMs b) ++ (initialDelayMs * 2 ^ b
            :: sleepsIn (retryLoop func maxRetries (maxRetries.toNat - (b + 1)) (0 + (b + 1 : Nat))
                delay' last' (0 + (b + 1))).trace) := by
        rw [Run.sleeps, htrace, exactBackoffTrace_snoc]
        simp [sleepsIn_append]
      have hl : (sleepsIn (exactBackoffTrace initialDelayMs b)).length = b := by
        rw [sleepsIn_exactBackoffTrace]; simp
      rw [hs, List.getElem?_append_right (by omega)]
      simp [hl]
  · intro hmax
    obtain ⟨m, hm, hM⟩ : ∃ m : Nat, maxRetries.toNat = m + 1 ∧ maxRetries = (m : Int) + 1 :=
      ⟨maxRetries.toNat - 1, by omega, by omega⟩
    unfold retryWithBackoff
    rw [hm]
    exact retryLoop_getLast func maxRetries m 0 initialDelayMs none 0 (by omega) (by omega)
  · intro hmax hfail
    obtain ⟨m, hm, hM⟩ : ∃ m : Nat, maxRetries.toNat = m + 1 ∧ maxRetries = (m : Int) + 1 :=
      ⟨maxRetries.toNat - 1, by omega, by omega⟩
    obtain ⟨e, he⟩ := hfail m (by omega)
    have hrun : retryWithBackoff func maxRetries initialDelayMs
        = ⟨.threw (some e), backoffTrace initialDelayMs m ++ [.invoke]⟩ := by
      unfold retryWithBackoff
      exact retryLoop_all_fail func maxRetries m e maxRetries.toNat 0 initialDelayMs none 0
        (fun j hj => by simpa using hfail j (by omega)) (by simpa using he) (by omega) (by omega)
    refine ⟨?_, ?_, ?_⟩
    · rw [hrun]
      simp [Run.calls, callsIn_append, callsIn_backoffTrace, hM]
    · rw [hrun]
      simp [Run.sleeps, sleepsIn_append, sleepsIn_backoffTrace_length, hM]
    · rw [hrun, hm]; rfl

/-- C7 at a concrete input: three attempts that all fail, initial delay
1000 ms; the sleep after the second attempt lasts 2000 ms and the run ends
with the third attempt. -/
theorem retryWithBackoff_sleep_after_attempt_witness :
    (1 ≤ 2) ∧ ((2 : Nat) : Int) < 3 ∧ fitsInt32 (1000 * 2 ^ (2 - 1))
    ∧ (retryWithBackoff alwaysUnreachable 3 1000).trace[2 * 2 - 1]?
        = some (.sleep (1000 * 2 ^ (2 - 1)))
    ∧ (retryWithBackoff alwaysUnreachable 3 1000).trace.getLast? = some .invoke :=
  have h := retryWithBackoff_sleep_after_attempt alwaysUnreachable 3 1000
  ⟨by decide, by decide, by decide,
    (h.1 2 (by decide) (by decide) (fun _ _ => ⟨_, rfl⟩) (by decide)).2.2.1,
    h.2.1 (by decide)⟩

end Utils

/-! ## Runs in which every attempt fails -/

theorem Utils.retryWithBackoff_all_fail_run {ε α : Type} (func : Nat → Outcome ε α)
    (maxRetries initialDelayMs : Int) (m : Nat) (e : ε) (hM : maxRetries = (m : Int) + 1)
    (hfail : ∀ j, j < m → ∃ e, func j = .threw e) (hlast : func m = .threw e) :
    Utils.retryWithBackoff func maxRetries initialDelayMs
      = ⟨.threw (some e), Utils.backoffTrace initialDelayMs m ++ [.invoke]⟩ := by
  unfold Utils.retryWithBackoff
  exact Utils.retryLoop_all_fail func maxRetries m e maxRetries.toNat 0 initialDelayMs none 0
    (fun j hj => by simpa using hfail j hj) (by simpa using hlast) (by omega) (by omega)

theorem AdvancedLicenseManager.validateLicenseWithRetry_failures_run {L : Type} [Inhabited L]
    (validateLicense : String → Nat → Result L) (licenseKey : String) (maxRetries : Int) (m : Nat)
    (hM : (m : Int) + 1 ≤ maxRetries)
    (hnet : ∀ j, j < m → AdvancedLicenseManager.isNetworkFailure (validateLicense licenseKey j) = true)
    (hret : AdvancedLicenseManager.isNetworkFailure (validateLicense licenseKey m) = false
      ∨ (m : Int) + 1 = maxRetries) :
    AdvancedLicenseManager.validateLicenseWithRetry validateLicense licenseKey maxRetries
      = ⟨validateLicense licenseKey m,
          AdvancedLicenseManager.networkRetryTrace 1 m ++ [.invoke]⟩ := by
  unfold AdvancedLicenseManager.validateLicenseWithRetry
  rw [AdvancedLicenseManager.validateLoop_failures validateLicense licenseKey maxRetries m
    maxRetries.toNat 1 0 (fun j hj => by simpa using hnet j hj) (by omega) (by omega)]
  obtain ⟨f, hf⟩ : ∃ f, maxRetries.toNat - m = f + 1 := ⟨maxRetries.toNat - m - 1, by omega⟩
  rw [hf, AdvancedLicenseManager.validateLoop_return validateLicense licenseKey maxRetries f
    (1 + m) (0 + m) (by omega) (by
      rcases hret with h | h
      · left; simpa using h
      · right; omega)]
  simp [Run.after]

/-- C8: for every operation and every `maxRetries ≥ 1`, `retryWithBackoff` and
`validateLicenseWithRetry` invoke the underlying operation at most
`maxRetries` times, and exactly `maxRetries` times with `maxRetries - 1`
sleeps when every attempt fails (for `validateLicenseWithRetry`: fails with
`NETWORK_ERROR`). -/
theorem retry_attempts_at_most_maxRetries {ε α L : Type} [Inhabited L]
    (func : Nat → Outcome ε α) (validateLicense : String → Nat → Result L) (licenseKey : String)
    (maxRetries initialDelayMs : Int) (hmax : 1 ≤ maxRetries) :
    ((Utils.retryWithBackoff func maxRetries initialDelayMs).calls : Int) ≤ maxRetries
    ∧ ((AdvancedLicenseManager.validateLicenseWithRetry validateLicense licenseKey maxRetries).calls
        : Int) ≤ maxRetries
    ∧ ((∀ j : Nat, (j : Int) < maxRetries → ∃ e, func j = .threw e) →
        ((Utils.retryWithBackoff func maxRetries initialDelayMs).calls : Int) = maxRetries
        ∧ ((Utils.retryWithBackoff func maxRetries initialDelayMs).sleeps.length : Int)
            = maxRetries - 1)
    ∧ ((∀ j : Nat, (j : Int) < maxRetries →
          AdvancedLicenseManager.isNetworkFailure (validateLicense licenseKey j) = true) →
        ((AdvancedLicenseManager.validateLicenseWithRetry validateLicense licenseKey maxRetries).calls
            : Int) = maxRetries
        ∧ ((AdvancedLicenseManager.validateLicenseWithRetry validateLicense licenseKey
              maxRetries).sleeps.length : Int) = maxRetries - 1) := by
  obtain ⟨m, hm, hM⟩ : ∃ m : Nat, maxRetries.toNat = m + 1 ∧ maxRetries = (m : Int) + 1 :=
    ⟨maxRetries.toNat - 1, by omega, by omega⟩
  refine ⟨?_, ?_, ?_, ?_⟩
  · have := Utils.retryLoop_calls_le func maxRetries maxRetries.toNat 0 initialDelayMs none 0
    unfold Utils.retryWithBackoff
    omega
  · have := AdvancedLicenseManager.validateLoop_calls_le validateLicense licenseKey maxRetries
      maxRetries.toNat 1 0
    unfold AdvancedLicenseManager.validateLicenseWithRetry
    omega
  · intro hfail
    obtain ⟨e, he⟩ := hfail m (by omega)
    rw [Utils.retryWithBackoff_all_fail_run func maxRetries initialDelayMs m e hM
      (fun j hj => hfail j (by omega)) he]
    simp [Run.calls, Run.sleeps, callsIn_append, sleepsIn_append, Utils.callsIn_backoffTrace,
      Utils.sleepsIn_backoffTrace_length, hM]
  · intro hnet
    rw [AdvancedLicenseManager.validateLicenseWithRetry_failures_run validateLicense licenseKey
      maxRetries m (by omega) (fun j hj => hnet j (by omega)) (Or.inr hM.symm)]
    simp [Run.calls, Run.sleeps, callsIn_append, sleepsIn_append,
      AdvancedLicenseManager.callsIn_networkRetryTrace,
      AdvancedLicenseManager.sleepsIn_networkRetryTrace_length, hM]

/-- C8 at a concrete input: `maxRetries = 3`, an operation and a client that
fail with a network error every time. -/
theorem retry_attempts_at_most_maxRetries_witness :
    (1 : Int) ≤ 3
    ∧ ((Utils.retryWithBackoff alwaysUnreachable 3 1000).calls : Int) = 3
    ∧ ((Utils.retryWithBackoff alwaysUnreachable 3 1000).sleeps.length : Int) = 3 - 1
    ∧ ((AdvancedLicenseManager.validateLicenseWithRetry clientUnreachable "KEY" 3).calls : Int) = 3
    ∧ ((AdvancedLicenseManager.validateLicenseWithRetry clientUnreachable "KEY" 3).sleeps.length
        : Int) = 3 - 1 :=
  have h := retry_attempts_at_most_maxRetries alwaysUnreachable clientUnreachable "KEY" 3 1000
    (by decide)
  have h1 := h.2.2.1 (fun _ _ => ⟨_, rfl⟩)
  have h2 := h.2.2.2 (fun _ _ => rfl)
  ⟨by decide, h1.1, h1.2, h2.1, h2.2⟩

/-- C9, refuted at `maxRetries = 3`: an operation that throws a
`ValidationException` every time is invoked three times, with sleeps of 1000
and 2000 ms in between, before the failure is returned. -/
theorem retryWithBackoff_validation_error_example :
    (Utils.retryWithBackoff alwaysInvalid 3 1000).calls = 3
    ∧ (Utils.retryWithBackoff alwaysInvalid 3 1000).sleeps = [1000, 2000]
    ∧ (Utils.retryWithBackoff alwaysInvalid 3 1000).result
        = .threw (some (ValidationException "license key must not be empty"))
    ∧ ¬ ((Utils.retryWithBackoff alwaysInvalid 3 1000).calls = 1
        ∧ (Utils.retryWithBackoff alwaysInvalid 3 1000).sleeps = []) := by
  decide

/-- C9, as the code has it: `retryWithBackoff` catches every exception alike.
When the first invocation fails with `e`, whatever kind of error `e` is, the
failure is returned after exactly one invocation and no sleep if and only if
`maxRetries = 1`; for `maxRetries ≥ 2` the failure is followed by a sleep of
`initialDelayMs` and a second invocation. Replacing every error the operation
throws by another one leaves the invocations and sleeps of the run the same. -/
theorem retryWithBackoff_retries_every_error {ε ε' α : Type} (func : Nat → Outcome ε α)
    (g : ε → ε') (maxRetries initialDelayMs : Int) (e : ε)
    (hmax : 1 ≤ maxRetries) (hfirst : func 0 = .threw e) :
    (maxRetries = 1 →
        Utils.retryWithBackoff func maxRetries initialDelayMs = ⟨.threw (some e), [.invoke]⟩)
    ∧ (2 ≤ maxRetries →
        (Utils.retryWithBackoff func maxRetries initialDelayMs).trace.take 3
          = [.invoke, .sleep initialDelayMs, .invoke])
    ∧ (((Utils.retryWithBackoff func maxRetries initialDelayMs).calls = 1
          ∧ (Utils.retryWithBackoff func maxRetries initialDelayMs).sleeps = [])
        ↔ maxRetries = 1)
    ∧ (Utils.retryWithBackoff (fun n => (func n).mapError g) maxRetries initialDelayMs).trace
        = (Utils.retryWithBackoff func maxRetries initialDelayMs).trace := by
  have hone : maxRetries = 1 →
      Utils.retryWithBackoff func maxRetries initialDelayMs = ⟨.threw (some e), [.invoke]⟩ := by
    intro h1
    rw [Utils.retryWithBackoff_all_fail_run func maxRetries initialDelayMs 0 e (by omega)
      (fun j hj => absurd hj (by omega)) hfirst]
    rfl
  have htwo : 2 ≤ maxRetries → ∃ rest : List Event,
      (Utils.retryWithBackoff func maxRetries initialDelayMs).trace
        = .invoke :: .sleep initialDelayMs :: .invoke :: rest := by
    intro h2
    obtain ⟨m, hm⟩ : ∃ m : Nat, maxRetries.toNat = m + 2 := ⟨maxRetries.toNat - 2, by omega⟩
    have hhead := Utils.retryLoop_head func maxRetries m (0 + 1) (wrapInt32 (initialDelayMs * 2))
      (some e) (0 + 1) (by omega)
    unfold Utils.retryWithBackoff
    rw [hm, Utils.retryLoop_threw func maxRetries (m + 1) 0 initialDelayMs none 0 e (by omega)
      hfirst, Run.trace_after]
    cases ht : (Utils.retryLoop func maxRetries (m + 1) (0 + 1) (wrapInt32 (initialDelayMs * 2))
      (some e) (0 + 1)).trace with
    | nil => rw [ht] at hhead; simp at hhead
    | cons x rest =>
      rw [ht] at hhead
      simp only [List.head?_cons, Option.some.injEq] at hhead
      exact ⟨rest, by rw [hhead]; rfl⟩
  refine ⟨hone, ?_, ?_, ?_⟩
  · intro h2
    obtain ⟨rest, hrest⟩ := htwo h2
    rw [hrest]
    rfl
  · constructor
    · rintro ⟨-, hs⟩
      by_contra hne
      obtain ⟨rest, hrest⟩ := htwo (by omega)
      simp [Run.sleeps, hrest] at hs
    · intro h1
      rw [hone h1]
      exact ⟨rfl, rfl⟩
  · unfold Utils.retryWithBackoff
    exact Utils.retryLoop_mapError func g maxRetries maxRetries.toNat 0 initialDelayMs none none 0

/-- C9 at concrete inputs: with `maxRetries = 1` the `ValidationException` is
returned after one invocation; with `maxRetries = 3` it is followed by a sleep
and a second invocation. -/
theorem retryWithBackoff_retries_every_error_witness :
    (1 : Int) ≤ 1 ∧ (1 : Int) ≤ 3
    ∧ Utils.retryWithBackoff alwaysInvalid 1 1000
        = ⟨.threw (some (ValidationException "license key must not be empty")), [.invoke]⟩
    ∧ (Utils.retryWithBackoff alwaysInvalid 3 1000).trace.take 3
        = [.invoke, .sleep 1000, .invoke] :=
  ⟨by decide, by decide,
    (retryWithBackoff_retries_every_error alwaysInvalid id 1 1000 _ (by decide) rfl).1 rfl,
    (retryWithBackoff_retries_every_error alwaysInvalid id 3 1000 _ (by decide) rfl).2.1
      (by decide)⟩

/-- C10: in `validateLicenseWithRetry`, for every `maxRetries ≥ 1` and every
attempt number `a ≤ maxRetries`, if the attempts before `a` fail with
`NETWORK_ERROR` and attempt `a` fails with another error type, the function
returns the result of attempt `a`: the client is invoked exactly `a` times,
each earlier attempt is followed by one sleep and none follows attempt `a`.
Whatever the client does, an attempt that is followed by another one failed
with `NETWORK_ERROR`. -/
theorem validateLicenseWithRetry_other_error_returns {L : Type} [Inhabited L]
    (validateLicense : String → Nat → Result L) (licenseKey : String) (maxRetries : Int)
    (a : Nat) (ha : 1 ≤ a) (ham : (a : Int) ≤ maxRetries)
    (hnet : ∀ j, j + 1 < a →
      AdvancedLicenseManager.isNetworkFailure (validateLicense licenseKey j) = true)
    (hfail : (validateLicense licenseKey (a - 1)).success = false)
    (htype : (validateLicense licenseKey (a - 1)).errorType ≠ .NETWORK_ERROR) :
    (AdvancedLicenseManager.validateLicenseWithRetry validateLicense licenseKey maxRetries).result
        = validateLicense licenseKey (a - 1)
    ∧ (AdvancedLicenseManager.validateLicenseWithRetry validateLicense licenseKey maxRetries).calls
        = a
    ∧ (AdvancedLicenseManager.validateLicenseWithRetry validateLicense licenseKey maxRetries).trace
        = AdvancedLicenseManager.networkRetryTrace 1 (a - 1) ++ [.invoke]
    ∧ (AdvancedLicenseManager.validateLicenseWithRetry validateLicense licenseKey
          maxRetries).trace.getLast? = some .invoke
    ∧ (AdvancedLicenseManager.validateLicenseWithRetry validateLicense licenseKey
          maxRetries).sleeps.length = a - 1
    ∧ ∀ (validateLicense' : String → Nat → Result L) (licenseKey' : String) (maxRetries' : Int)
        (j : Nat),
        j + 1 < (AdvancedLicenseManager.validateLicenseWithRetry validateLicense' licenseKey'
            maxRetries').calls →
          (validateLicense' licenseKey' j).success = false
          ∧ (validateLicense' licenseKey' j).errorType = .NETWORK_ERROR := by
  obtain ⟨b, rfl⟩ : ∃ b, a = b + 1 := ⟨a - 1, by omega⟩
  simp only [Nat.add_sub_cancel] at hfail htype ⊢
  have hrun := AdvancedLicenseManager.validateLicenseWithRetry_failures_run validateLicense
    licenseKey maxRetries b (by push_cast at ham; omega) (fun j hj => hnet j (by omega))
    (Or.inl (by simp [AdvancedLicenseManager.isNetworkFailure, hfail, htype]))
  refine ⟨by rw [hrun], ?_, by rw [hrun], ?_, ?_, ?_⟩
  · rw [hrun]
    simp [Run.calls, callsIn_append, AdvancedLicenseManager.callsIn_networkRetryTrace]
  · rw [hrun]
    simp
  · rw [hrun]
    simp [Run.sleeps, sleepsIn_append, AdvancedLicenseManager.sleepsIn_networkRetryTrace_length]
  · intro validateLicense' licenseKey' maxRetries' j hj
    have h := AdvancedLicenseManager.validateLoop_retried_is_network validateLicense' licenseKey'
      maxRetries' maxRetries'.toNat 1 0 j hj
    simpa [AdvancedLicenseManager.isNetworkFailure] using h

/-- C10 at a concrete input: `maxRetries = 3`, the first attempt fails with
`NETWORK_ERROR` and the second, `a = 2`, with `INVALID_LICENSE`. -/
theorem validateLicenseWithRetry_other_error_returns_witness :
    (1 ≤ 2) ∧ ((2 : Nat) : Int) ≤ 3
    ∧ (clientThenInvalid "KEY" (2 - 1)).success = false
    ∧ (clientThenInvalid "KEY" (2 - 1)).errorType ≠ .NETWORK_ERROR
    ∧ (AdvancedLicenseManager.validateLicenseWithRetry clientThenInvalid "KEY" 3).result
        = clientThenInvalid "KEY" (2 - 1)
    ∧ (AdvancedLicenseManager.validateLicenseWithRetry clientThenInvalid "KEY" 3).calls = 2
    ∧ (AdvancedLicenseManager.validateLicenseWithRetry clientThenInvalid "KEY" 3).trace
        = [.invoke, .sleep 2000, .invoke] :=
  have h := validateLicenseWithRetry_other_error_returns clientThenInvalid "KEY" 3 2
    (by decide) (by decide)
    (fun j hj => by
      have : j = 0 := by omega
      subst this
      rfl)
    (by decide) (by decide)
  ⟨by decide, by decide, by decide, by decide, h.1, h.2.1, by decide⟩

/-! ## `std::map` -/

namespace StdMap

theorem find_assign_self {V : Type} (m : StdMap V) (key : String) (value : V) :
    find (assign m key value) key = some value := by
  induction m with
  | nil => simp [assign, find]
  | cons entry rest ih =>
    obtain ⟨k, v⟩ := entry
    by_cases h : k = key
    · simp [assign, find, h]
    · simp [assign, find, h, ih]

theorem find_assign_of_ne {V : Type} (m : StdMap V) (key other : String) (value : V)
    (hne : other ≠ key) : find (assign m key value) other = find m other := by
  induction m with
  | nil => simp [assign, find, Ne.symm hne]
  | cons entry rest ih =>
    obtain ⟨k, v⟩ := entry
    by_cases h : k = key
    · simp [assign, find, h, Ne.symm hne]
    · by_cases h' : k = other
      · subst h'
        simp [assign, find, h]
      · simp [assign, find, h, h', ih]

theorem size_assign {V : Type} (m : StdMap V) (key : String) (value : V) :
    size (assign m key value) = size m + (if (find m key).isSome then 0 else 1) := by
  induction m with
  | nil => simp [assign, find, size]
  | cons entry rest ih =>
    obtain ⟨k, v⟩ := entry
    by_cases h : k = key
    · simp [assign, find, size, h]
    · simp only [size] at ih
      simp only [assign, find, size, h, if_false, List.length_cons, ih]
      omega

theorem mem_keys_iff_find {V : Type} (m : StdMap V) (key : String) :
    key ∈ keys m ↔ (find m key).isSome = true := by
  induction m with
  | nil => simp [keys, find]
  | cons entry rest ih =>
    obtain ⟨k, v⟩ := entry
    by_cases h : k = key
    · simp [keys, find, h]
    · have h' : ¬ key = k := fun e => h e.symm
      simp only [keys] at ih
      simp [keys, find, h, h', ih]

/-- No key occurs twice in a map that is built by assignments. -/
theorem keys_assign_nodup {V : Type} (m : StdMap V) (key : String) (value : V)
    (hm : (keys m).Nodup) : (keys (assign m key value)).Nodup := by
  induction m with
  | nil => simp [assign, keys]
  | cons entry rest ih =>
    obtain ⟨k, v⟩ := entry
    simp only [keys, List.map_cons, List.nodup_cons] at hm
    by_cases h : k = key
    · subst h
      simpa [assign, keys] using hm
    · simp only [assign, h, if_false, keys, List.map_cons, List.nodup_cons]
      refine ⟨?_, ih hm.2⟩
      intro hmem
      have h1 := (mem_keys_iff_find (assign rest key value) k).mp hmem
      rw [find_assign_of_ne rest key k value h] at h1
      exact hm.1 ((mem_keys_iff_find rest k).mpr h1)

end StdMap

/-! ## Exhausted retries -/

theorem AdvancedLicenseManager.validateLoop_head {L : Type} [Inhabited L]
    (validateLicense : String → Nat → Result L) (licenseKey : String) (maxRetries : Int)
    (fuel : Nat) (attempt : Int) (n : Nat) (h : attempt ≤ maxRetries) :
    ∃ rest, (AdvancedLicenseManager.validateLoop validateLicense licenseKey maxRetries (fuel + 1)
      attempt n).trace = .invoke :: rest := by
  unfold AdvancedLicenseManager.validateLoop
  simp only [h, if_true]
  split
  · exact ⟨[], rfl⟩
  · split
    · exact ⟨[], rfl⟩
    · exact ⟨_, rfl⟩

theorem AdvancedLicenseManager.validateLicenseWithRetry_calls_pos {L : Type} [Inhabited L]
    (validateLicense : String → Nat → Result L) (licenseKey : String) (maxRetries : Int)
    (hmax : 1 ≤ maxRetries) :
    1 ≤ (AdvancedLicenseManager.validateLicenseWithRetry validateLicense licenseKey
      maxRetries).calls := by
  obtain ⟨m, hm⟩ : ∃ m : Nat, maxRetries.toNat = m + 1 := ⟨maxRetries.toNat - 1, by omega⟩
  obtain ⟨rest, hrest⟩ := AdvancedLicenseManager.validateLoop_head validateLicense licenseKey
    maxRetries m 1 0 hmax
  unfold AdvancedLicenseManager.validateLicenseWithRetry
  rw [hm, Run.calls, hrest]
  simp

/-- C11, refuted at `maxRetries = 3`: all three attempts fail with
`NETWORK_ERROR`, and the failure returned has the error type `NETWORK_ERROR`,
not `RETRY_EXHAUSTED`. -/
theorem validateLicenseWithRetry_exhausted_example :
    (∀ j : Fin 3, AdvancedLicenseManager.isNetworkFailure (clientUnreachable "KEY" j.val) = true)
    ∧ (AdvancedLicenseManager.validateLicenseWithRetry clientUnreachable "KEY" 3).calls = 3
    ∧ (AdvancedLicenseManager.validateLicenseWithRetry clientUnreachable "KEY" 3).result.errorType
        = .NETWORK_ERROR
    ∧ (AdvancedLicenseManager.validateLicenseWithRetry clientUnreachable "KEY" 3).result.errorType
        ≠ .RETRY_EXHAUSTED := by
  decide

/-- C11, as the code has it: for every `maxRetries ≥ 1`, when all `maxRetries`
attempts of `validateLicenseWithRetry` fail with `NETWORK_ERROR`, the function
returns the result of the last attempt itself, a failure of type
`NETWORK_ERROR` with that attempt's error. The failure `RETRY_EXHAUSTED` is
what the function returns for `maxRetries ≤ 0`, when it makes no attempt. -/
theorem validateLicenseWithRetry_exhausted_returns_last {L : Type} [Inhabited L]
    (validateLicense : String → Nat → Result L) (licenseKey : String) (maxRetries : Int) :
    (1 ≤ maxRetries →
      (∀ j : Nat, (j : Int) < maxRetries →
        AdvancedLicenseManager.isNetworkFailure (validateLicense licenseKey j) = true) →
      (AdvancedLicenseManager.validateLicenseWithRetry validateLicense licenseKey maxRetries).result
          = validateLicense licenseKey (maxRetries.toNat - 1)
      ∧ (AdvancedLicenseManager.validateLicenseWithRetry validateLicense licenseKey
            maxRetries).result.success = false
      ∧ (AdvancedLicenseManager.validateLicenseWithRetry validateLicense licenseKey
            maxRetries).result.errorType = .NETWORK_ERROR
      ∧ (AdvancedLicenseManager.validateLicenseWithRetry validateLicense licenseKey
            maxRetries).result.errorType ≠ .RETRY_EXHAUSTED)
    ∧ (maxRetries ≤ 0 →
      AdvancedLicenseManager.validateLicenseWithRetry validateLicense licenseKey maxRetries
        = ⟨Result.makeError .RETRY_EXHAUSTED "Maximum retry attempts exceeded", []⟩) := by
  constructor
  · intro hmax hnet
    obtain ⟨m, hm, hM⟩ : ∃ m : Nat, maxRetries.toNat = m + 1 ∧ maxRetries = (m : Int) + 1 :=
      ⟨maxRetries.toNat - 1, by omega, by omega⟩
    have hrun := AdvancedLicenseManager.validateLicenseWithRetry_failures_run validateLicense
      licenseKey maxRetries m (by omega) (fun j hj => hnet j (by omega)) (Or.inr hM.symm)
    have hlast := hnet m (by omega)
    simp only [AdvancedLicenseManager.isNetworkFailure, Bool.and_eq_true, Bool.not_eq_true',
      beq_iff_eq] at hlast
    rw [hrun, hm, Nat.add_sub_cancel]
    refine ⟨rfl, hlast.1, hlast.2, ?_⟩
    simp [hlast.2]
  · intro hle
    have h0 : maxRetries.toNat = 0 := by omega
    unfold AdvancedLicenseManager.validateLicenseWithRetry
    rw [h0]
    rfl

/-- C11 at a concrete input: three attempts that fail with `NETWORK_ERROR`. -/
theorem validateLicenseWithRetry_exhausted_returns_last_witness :
    (1 : Int) ≤ 3
    ∧ (AdvancedLicenseManager.validateLicenseWithRetry clientUnreachable "KEY" 3).result
        = clientUnreachable "KEY" 2
    ∧ (AdvancedLicenseManager.validateLicenseWithRetry clientUnreachable "KEY" 0).result.errorType
        = .RETRY_EXHAUSTED :=
  have h := validateLicenseWithRetry_exhausted_returns_last clientUnreachable "KEY" 3
  have h0 := (validateLicenseWithRetry_exhausted_returns_last clientUnreachable "KEY" 0).2
    (by decide)
  ⟨by decide, (h.1 (by decide) (fun _ _ => rfl)).1, by rw [h0]; rfl⟩

/-- C12: for every `maxRetries ≥ 1`, when every attempt of the operation fails,
`retryWithBackoff` rethrows the error of the final, `maxRetries`-th attempt:
the exception it reports is that error and not the null exception. -/
theorem retryWithBackoff_reports_last_error {ε α : Type} (func : Nat → Outcome ε α)
    (maxRetries initialDelayMs : Int) (hmax : 1 ≤ maxRetries)
    (hfail : ∀ j : Nat, (j : Int) < maxRetries → ∃ e, func j = .threw e) :
    ∃ e, func (maxRetries.toNat - 1) = .threw e
      ∧ (Utils.retryWithBackoff func maxRetries initialDelayMs).result = .threw (some e)
      ∧ (Utils.retryWithBackoff func maxRetries initialDelayMs).result ≠ .threw none
      ∧ ∀ v, (Utils.retryWithBackoff func maxRetries initialDelayMs).result ≠ .returned v := by
  obtain ⟨m, hm, hM⟩ : ∃ m : Nat, maxRetries.toNat = m + 1 ∧ maxRetries = (m : Int) + 1 :=
    ⟨maxRetries.toNat - 1, by omega, by omega⟩
  obtain ⟨e, he⟩ := hfail m (by omega)
  refine ⟨e, by rw [hm, Nat.add_sub_cancel]; exact he, ?_⟩
  rw [Utils.retryWithBackoff_all_fail_run func maxRetries initialDelayMs m e hM
    (fun j hj => hfail j (by omega)) he]
  simp

/-- C12 at a concrete input: an operation that throws a `ValidationException`
on the first two invocations and a `ServerException` from the third on, with
`maxRetries = 3`. -/
theorem retryWithBackoff_reports_last_error_witness :
    (1 : Int) ≤ 3
    ∧ (Utils.retryWithBackoff failDifferently 3 1000).result
        = .threw (some (ServerException "internal error")) :=
  have h := retryWithBackoff_reports_last_error failDifferently 3 1000 (by decide)
    (fun j _ => by
      by_cases hj : j < 2
      · exact ⟨_, if_pos hj⟩
      · exact ⟨_, if_neg hj⟩)
  ⟨by decide, by
    obtain ⟨e, he, hres, -⟩ := h
    rw [hres]
    have : failDifferently 2 = .threw (ServerException "internal error") := rfl
    have h2 : (3 : Int).toNat - 1 = 2 := by decide
    rw [h2, this] at he
    cases he
    rfl⟩


/-! ## The license cache -/

namespace AdvancedLicenseManager

section Cache

variable {D : Type} [Inhabited D] (validateLicense : String → Nat → Result (License D))
  (licenseCache : LicenseCache D) (licenseKey : String) (now stamp : Int)

theorem validateAndStore_trace :
    (validateAndStore validateLicense licenseCache licenseKey stamp).trace
      = (validateLicenseWithRetry validateLicense licenseKey defaultMaxRetries).trace := by
  unfold validateAndStore
  simp only
  split <;> rfl

theorem validateAndStore_calls_pos :
    1 ≤ callsIn (validateAndStore validateLicense licenseCache licenseKey stamp).trace := by
  rw [validateAndStore_trace]
  exact validateLicenseWithRetry_calls_pos validateLicense licenseKey defaultMaxRetries
    (by decide)

end Cache

end AdvancedLicenseManager


/-- C16: for every cache, after `clearCache` the cache holds no entry and
`getCacheSize` returns 0, and the next `validateLicenseWithCache`, for any key
and at any time, validates remotely, invoking the client. -/
theorem clearCache_empties {D : Type} [Inhabited D]
    (licenseCache : AdvancedLicenseManager.LicenseCache D) :
    AdvancedLicenseManager.clearCache licenseCache = []
    ∧ AdvancedLicenseManager.getCacheSize (AdvancedLicenseManager.clearCache licenseCache) = 0
    ∧ (∀ key : String,
        StdMap.find (AdvancedLicenseManager.clearCache licenseCache) key = none)
    ∧ ∀ (validateLicense : String → Nat → Result (License D)) (licenseKey : String)
        (now stamp : Int),
        AdvancedLicenseManager.validateLicenseWithCache validateLicense
            (AdvancedLicenseManager.clearCache licenseCache) licenseKey now stamp
          = AdvancedLicenseManager.validateAndStore validateLicense [] licenseKey stamp
        ∧ (AdvancedLicenseManager.validateLicenseWithCache validateLicense
            (AdvancedLicenseManager.clearCache licenseCache) licenseKey now stamp).trace
          = (AdvancedLicenseManager.validateLicenseWithRetry validateLicense licenseKey 3).trace
        ∧ 1 ≤ callsIn (AdvancedLicenseManager.validateLicenseWithCache validateLicense
            (AdvancedLicenseManager.clearCache licenseCache) licenseKey now stamp).trace := by
  refine ⟨rfl, rfl, fun _ => rfl, ?_⟩
  intro validateLicense licenseKey now stamp
  have hrun : AdvancedLicenseManager.validateLicenseWithCache validateLicense
      (AdvancedLicenseManager.clearCache licenseCache) licenseKey now stamp
      = AdvancedLicenseManager.validateAndStore validateLicense [] licenseKey stamp := rfl
  refine ⟨hrun, ?_, ?_⟩
  · rw [hrun]
    exact AdvancedLicenseManager.validateAndStore_trace validateLicense [] licenseKey stamp
  · rw [hrun]
    exact AdvancedLicenseManager.validateAndStore_calls_pos validateLicense [] licenseKey stamp

/-! ## Event dispatch -/

theorem WebhookManager.selectHandler_eq_none_iff (event : String) :
    WebhookManager.selectHandler event = none ↔ event ∉ WebhookManager.handledEvents := by
  unfold WebhookManager.selectHandler WebhookManager.handledEvents
  constructor
  · intro h hmem
    simp only [List.mem_cons, List.mem_singleton, List.not_mem_nil, or_false] at hmem
    rcases hmem with h1 | h1 | h1 | h1 | h1 | h1 | h1 | h1 | h1 | h1 | h1 | h1 <;>
      · subst h1
        revert h
        decide
  · intro hmem
    simp only [List.mem_cons, List.mem_singleton, List.not_mem_nil, or_false, not_or] at hmem
    obtain ⟨h1, h2, h3, h4, h5, h6, h7, h8, h9, h10, h11, h12⟩ := hmem
    simp [h1, h2, h3, h4, h5, h6, h7, h8, h9, h10, h11, h12]

/-- C17, refuted for the example: after `h1` and then `h2` are registered for
`license.created`, the registry holds `h2` alone for that type, and the
dispatch of one `license.created` event invokes the built-in
`handleLicenseCreated` and neither `h1` nor `h2`. -/
theorem registerEventHandler_dispatch_example :
    StdMap.find (WebhookManager.registerEventHandler
        (WebhookManager.registerEventHandler [] "license.created" "h1") "license.created" "h2")
        "license.created" = some "h2"
    ∧ (WebhookManager.setupWebhookHandler
        (WebhookManager.registerEventHandler
          (WebhookManager.registerEventHandler [] "license.created" "h1") "license.created" "h2")
        "license.created" [("licenseKey", "LICENSE-12345")]).invoked
      = [.builtin .handleLicenseCreated]
    ∧ (WebhookManager.setupWebhookHandler
        (WebhookManager.registerEventHandler
          (WebhookManager.registerEventHandler [] "license.created" "h1") "license.created" "h2")
        "license.created" [("licenseKey", "LICENSE-12345")]).invoked
      ≠ [.registered "h1", .registered "h2"] := by
  decide

/-- C17, as the code and the specification have it: in the registry declared
in `WebhookHandler`, after `h1` and then `h2` are registered for a type, the
dispatch of an event of that type invokes the callbacks registered before,
then `h1`, then `h2`, once each, and registering for one type leaves the other
types alone. In the example, `registerEventHandler` keeps one handler per
event name, so that `h2` registered after `h1` replaces it, and the dispatcher
runs the built-in handler of an event of one of its twelve names exactly
once. -/
theorem dispatch_registration_order {H : Type} [DecidableEq H] (eventType : String) (h1 h2 : H) :
    (∀ callbacks : WebhookHandler.EventCallbacks H,
      WebhookHandler.callEventCallbacks
          (WebhookHandler.onEvent (WebhookHandler.onEvent callbacks eventType h1) eventType h2)
          eventType
        = WebhookHandler.callEventCallbacks callbacks eventType ++ [h1, h2])
    ∧ WebhookHandler.callEventCallbacks
          (WebhookHandler.onEvent (WebhookHandler.onEvent [] eventType h1) eventType h2) eventType
        = [h1, h2]
    ∧ (∀ (callbacks : WebhookHandler.EventCallbacks H) (other : String), other ≠ eventType →
        WebhookHandler.callEventCallbacks (WebhookHandler.onEvent callbacks eventType h1) other
          = WebhookHandler.callEventCallbacks callbacks other)
    ∧ (∀ eventHandlers : WebhookManager.EventHandlers H,
        StdMap.find (WebhookManager.registerEventHandler
            (WebhookManager.registerEventHandler eventHandlers eventType h1) eventType h2)
            eventType = some h2
        ∧ StdMap.size (WebhookManager.registerEventHandler
            (WebhookManager.registerEventHandler eventHandlers eventType h1) eventType h2)
          = StdMap.size (WebhookManager.registerEventHandler eventHandlers eventType h1))
    ∧ ∀ (eventHandlers : WebhookManager.EventHandlers H) (data : StdMap String)
        (handler : WebhookManager.BuiltinHandler),
        WebhookManager.selectHandler eventType = some handler →
          ((WebhookManager.setupWebhookHandler eventHandlers eventType data).invoked).count
            (.builtin handler) = 1 := by
  have hpair : ∀ callbacks : WebhookHandler.EventCallbacks H,
      WebhookHandler.callEventCallbacks
          (WebhookHandler.onEvent (WebhookHandler.onEvent callbacks eventType h1) eventType h2)
          eventType
        = WebhookHandler.callEventCallbacks callbacks eventType ++ [h1, h2] := by
    intro callbacks
    simp [WebhookHandler.callEventCallbacks, WebhookHandler.onEvent, StdMap.find_assign_self]
  refine ⟨hpair, ?_, ?_, ?_, ?_⟩
  · rw [hpair]; rfl
  · intro callbacks other hne
    simp [WebhookHandler.callEventCallbacks, WebhookHandler.onEvent,
      StdMap.find_assign_of_ne _ _ _ _ hne]
  · intro eventHandlers
    refine ⟨StdMap.find_assign_self _ _ _, ?_⟩
    simp [WebhookManager.registerEventHandler, StdMap.size_assign, StdMap.find_assign_self]
  · intro eventHandlers data handler hsel
    simp [WebhookManager.setupWebhookHandler, hsel]

/-- C18: in the dispatcher that `setupWebhookHandler` installs, for every event
name outside the twelve handled ones, whatever the data map contains and
whatever handlers are registered, none of the `handle*` functions runs and the
dispatch returns normally. -/
theorem setupWebhookHandler_unhandled_event {H : Type}
    (eventHandlers : WebhookManager.EventHandlers H) (event : String) (data : StdMap String)
    (hevent : event ∉ WebhookManager.handledEvents) :
    (∀ handler : WebhookManager.BuiltinHandler,
      WebhookManager.Invoked.builtin handler ∉ (WebhookManager.setupWebhookHandler eventHandlers event data).invoked)
    ∧ (WebhookManager.setupWebhookHandler eventHandlers event data).returned = true := by
  have hsel := (WebhookManager.selectHandler_eq_none_iff event).mpr hevent
  simp [WebhookManager.setupWebhookHandler, hsel]


/-- C18 at a concrete input: the event `custom.event`, for which a handler is
registered, with a data map that holds none of the keys the built-in handlers
read. -/
theorem setupWebhookHandler_unhandled_event_witness :
    "custom.event" ∉ WebhookManager.handledEvents
    ∧ (∀ handler : WebhookManager.BuiltinHandler,
        WebhookManager.Invoked.builtin handler ∉
          (WebhookManager.setupWebhookHandler
            (WebhookManager.registerEventHandler [] "custom.event" "notify") "custom.event"
            [("message", "Hello from webhook!")]).invoked)
    ∧ (WebhookManager.setupWebhookHandler
        (WebhookManager.registerEventHandler [] "custom.event" "notify") "custom.event"
        [("message", "Hello from webhook!")]).returned = true :=
  have h := setupWebhookHandler_unhandled_event
    (WebhookManager.registerEventHandler [] "custom.event" "notify") "custom.event"
    [("message", "Hello from webhook!")] (by decide)
  ⟨by decide, h.1, h.2⟩

/-! ## Exceptions -/

/-- C19: the six exception classes carry the error codes `NETWORK_ERROR`,
`VALIDATION_ERROR`, `AUTHENTICATION_ERROR`, `NOT_FOUND_ERROR`,
`RATE_LIMIT_ERROR` and `SERVER_ERROR` and the status codes 0, 400, 401, 404,
429 and 500, whatever the message, and the six error codes are pairwise
distinct. -/
theorem exception_codes (message : String) :
    (NetworkException message).getErrorCode = "NETWORK_ERROR"
    ∧ (NetworkException message).getStatusCode = 0
    ∧ (ValidationException message).getErrorCode = "VALIDATION_ERROR"
    ∧ (ValidationException message).getStatusCode = 400
    ∧ (AuthenticationException message).getErrorCode = "AUTHENTICATION_ERROR"
    ∧ (AuthenticationException message).getStatusCode = 401
    ∧ (NotFoundException message).getErrorCode = "NOT_FOUND_ERROR"
    ∧ (NotFoundException message).getStatusCode = 404
    ∧ (RateLimitException message).getErrorCode = "RATE_LIMIT_ERROR"
    ∧ (RateLimitException message).getStatusCode = 429
    ∧ (ServerException message).getErrorCode = "SERVER_ERROR"
    ∧ (ServerException message).getStatusCode = 500
    ∧ ∀ m1 m2 m3 m4 m5 m6 : String,
        [(NetworkException m1).getErrorCode, (ValidationException m2).getErrorCode,
          (AuthenticationException m3).getErrorCode, (NotFoundException m4).getErrorCode,
          (RateLimitException m5).getErrorCode, (ServerException m6).getErrorCode].Pairwise
          (· ≠ ·) := by
  refine ⟨rfl, rfl, rfl, rfl, rfl, rfl, rfl, rfl, rfl, rfl, rfl, rfl, ?_⟩
  intro m1 m2 m3 m4 m5 m6
  simp only [NetworkException, ValidationException, AuthenticationException, NotFoundException,
    RateLimitException, ServerException, LicenseChainException.getErrorCode]
  decide

/-! ## The class `LicenseChain` -/

theorem beginsWith_iff (pattern text : List Char) :
    beginsWith pattern text = true ↔ ∃ rest, text = pattern ++ rest := by
  induction pattern generalizing text with
  | nil => simp [beginsWith]
  | cons p ps ih =>
    cases text with
    | nil => simp [beginsWith]
    | cons t ts =>
      simp only [beginsWith, Bool.and_eq_true, beq_iff_eq, ih, List.cons_append, List.cons.injEq]
      constructor
      · rintro ⟨rfl, rest, rfl⟩; exact ⟨rest, rfl, rfl⟩
      · rintro ⟨rest, rfl, rfl⟩; exact ⟨rfl, rest, rfl⟩

/-- `find` reports a position exactly when the pattern occurs in the text. -/
theorem stringFind_isSome_iff (pattern text : List Char) :
    (stringFind pattern text).isSome = true ↔ ∃ before rest, text = before ++ pattern ++ rest := by
  induction text with
  | nil =>
    unfold stringFind
    by_cases h : beginsWith pattern [] = true
    · rw [if_pos h]
      simp only [Option.isSome_some, true_iff]
      obtain ⟨rest, hrest⟩ := (beginsWith_iff pattern []).mp h
      exact ⟨[], rest, by simpa using hrest⟩
    · rw [if_neg h]
      simp only [Option.isSome_none, Bool.false_eq_true, false_iff]
      rintro ⟨before, rest, heq⟩
      apply h
      rw [beginsWith_iff]
      have h1 : before = [] := by
        cases before with
        | nil => rfl
        | cons b bs => simp at heq
      subst h1
      exact ⟨rest, by simpa using heq⟩
  | cons t ts ih =>
    unfold stringFind
    by_cases h : beginsWith pattern (t :: ts) = true
    · rw [if_pos h]
      simp only [Option.isSome_some, true_iff]
      obtain ⟨rest, hrest⟩ := (beginsWith_iff pattern (t :: ts)).mp h
      exact ⟨[], rest, by simpa using hrest⟩
    · rw [if_neg h, Option.isSome_map', ih]
      constructor
      · rintro ⟨before, rest, heq⟩
        exact ⟨t :: before, rest, by simp [heq]⟩
      · rintro ⟨before, rest, heq⟩
        cases before with
        | nil =>
          exfalso
          apply h
          rw [beginsWith_iff]
          exact ⟨rest, by simpa using heq⟩
        | cons b bs =>
          simp only [List.cons_append, List.cons.injEq] at heq
          exact ⟨bs, rest, heq.2⟩

/-- The search of line 11 on its own: `find("valid")` reports a position also
in a response that says `invalid`. -/
theorem stringFind_valid_in_invalid :
    stringFind "valid".data "invalid".data = some 2
    ∧ ∀ before rest : List Char,
        (stringFind "valid".data (before ++ "invalid".data ++ rest)).isSome = true := by
  refine ⟨by decide, ?_⟩
  intro before rest
  rw [stringFind_isSome_iff]
  refine ⟨before ++ ['i', 'n'], rest, ?_⟩
  have : "invalid".data = ['i', 'n'] ++ "valid".data := rfl
  rw [this]
  simp

/-- What `validateLicense` does for every API key, license key and service:
it returns false when libcurl makes no call of the write callback, it has no
defined return when libcurl delivers data of a response, whatever the response
says, and in no case does it return true. -/
theorem LicenseChain.validateLicense_cases (self : LicenseChain)
    (transfer : String → Option String) (licenseKey : String) :
    (transfer (self.apiUrl ++ "?license_key=" ++ licenseKey ++ "&api_key=" ++ self.apiKey)
        = none →
      self.makeApiRequest transfer licenseKey = some ""
      ∧ self.validateLicense transfer licenseKey = some false)
    ∧ (∀ body,
        transfer (self.apiUrl ++ "?license_key=" ++ licenseKey ++ "&api_key=" ++ self.apiKey)
          = some body →
        self.makeApiRequest transfer licenseKey = none
        ∧ self.validateLicense transfer licenseKey = none)
    ∧ self.validateLicense transfer licenseKey ≠ some true := by
  have hnone : transfer (self.apiUrl ++ "?license_key=" ++ licenseKey ++ "&api_key="
        ++ self.apiKey) = none →
      self.makeApiRequest transfer licenseKey = some ""
      ∧ self.validateLicense transfer licenseKey = some false := by
    intro h
    have h1 : self.makeApiRequest transfer licenseKey = some "" := by
      simp only [LicenseChain.makeApiRequest, h]
    refine ⟨h1, ?_⟩
    rw [LicenseChain.validateLicense, h1]
    decide
  have hsome : ∀ body,
      transfer (self.apiUrl ++ "?license_key=" ++ licenseKey ++ "&api_key=" ++ self.apiKey)
        = some body →
      self.makeApiRequest transfer licenseKey = none
      ∧ self.validateLicense transfer licenseKey = none := by
    intro body h
    have h1 : self.makeApiRequest transfer licenseKey = none := by
      simp only [LicenseChain.makeApiRequest, h]
    refine ⟨h1, ?_⟩
    rw [LicenseChain.validateLicense, h1]
    rfl
  refine ⟨hnone, hsome, ?_⟩
  cases h : transfer (self.apiUrl ++ "?license_key=" ++ licenseKey ++ "&api_key="
      ++ self.apiKey) with
  | none => rw [(hnone h).2]; decide
  | some body => rw [(hsome body h).2]; exact Option.noConfusion

/-- C20, the code at the failing input: for the license key
`invalid_license_key` of the test, when the service answers with the body
`invalid`, libcurl delivers the body through a write callback that is not the
lambda: `readBuffer` is not filled, the behaviour is undefined, and
`validateLicense` has no defined return, so it does not return false. When
the transfer fails and nothing is delivered, it returns false. -/
theorem validateLicense_delivered_body_undefined :
    (LicenseChain.create "test_api_key").makeApiRequest (fun _ => some "invalid")
        "invalid_license_key" = none
    ∧ (LicenseChain.create "test_api_key").validateLicense (fun _ => some "invalid")
        "invalid_license_key" = none
    ∧ (LicenseChain.create "test_api_key").validateLicense (fun _ => some "invalid")
        "invalid_license_key" ≠ some false
    ∧ (LicenseChain.create "test_api_key").makeApiRequest (fun _ => none)
        "invalid_license_key" = some ""
    ∧ (LicenseChain.create "test_api_key").validateLicense (fun _ => none)
        "invalid_license_key" = some false := by
  decide

/-! ## The final rethrow of `retryWithBackoff` -/

theorem Utils.retryLoop_result_ne_null {ε α : Type} (func : Nat → Outcome ε α)
    (maxRetries : Int) (fuel : Nat) :
    ∀ (i delay : Int) (e : ε) (n : Nat),
      (Utils.retryLoop func maxRetries fuel i delay (some e) n).result ≠ .threw none := by
  induction fuel with
  | zero => intro i delay e n; simp [Utils.retryLoop]
  | succ fuel ih =>
    intro i delay e n
    unfold Utils.retryLoop
    split
    · split
      · simp
      · split
        · exact ih _ _ _ _
        · exact ih _ _ _ _
    · simp

theorem Utils.retryLoop_first_result_ne_null {ε α : Type} (func : Nat → Outcome ε α)
    (maxRetries : Int) (fuel : Nat) (i delay : Int) (last : Option ε) (n : Nat)
    (h : i < maxRetries) :
    (Utils.retryLoop func maxRetries (fuel + 1) i delay last n).result ≠ .threw none := by
  unfold Utils.retryLoop
  simp only [h, if_true]
  split
  · simp
  · split
    · exact Utils.retryLoop_result_ne_null func maxRetries fuel _ _ _ _
    · exact Utils.retryLoop_result_ne_null func maxRetries fuel _ _ _ _

/-- C21: with `maxRetries ≥ 1`, `retryWithBackoff` invokes the operation at
least once and what it rethrows is never the null exception; the null
exception is rethrown only for `maxRetries ≤ 0`, and then exactly so, with no
invocation of the operation and no sleep. -/
theorem retryWithBackoff_null_rethrow {ε α : Type} (func : Nat → Outcome ε α)
    (maxRetries initialDelayMs : Int) :
    (1 ≤ maxRetries →
      1 ≤ (Utils.retryWithBackoff func maxRetries initialDelayMs).calls
      ∧ (Utils.retryWithBackoff func maxRetries initialDelayMs).result ≠ .threw none)
    ∧ ((Utils.retryWithBackoff func maxRetries initialDelayMs).result = .threw none
        ↔ maxRetries ≤ 0)
    ∧ (maxRetries ≤ 0 →
        Utils.retryWithBackoff func maxRetries initialDelayMs = ⟨.threw none, []⟩
        ∧ (Utils.retryWithBackoff func maxRetries initialDelayMs).calls = 0) := by
  have hpos : 1 ≤ maxRetries →
      1 ≤ (Utils.retryWithBackoff func maxRetries initialDelayMs).calls
      ∧ (Utils.retryWithBackoff func maxRetries initialDelayMs).result ≠ .threw none := by
    intro hmax
    obtain ⟨m, hm⟩ : ∃ m : Nat, maxRetries.toNat = m + 1 := ⟨maxRetries.toNat - 1, by omega⟩
    unfold Utils.retryWithBackoff
    rw [hm]
    constructor
    · have hhead := Utils.retryLoop_head func maxRetries m 0 initialDelayMs none 0 (by omega)
      cases ht : (Utils.retryLoop func maxRetries (m + 1) 0 initialDelayMs none 0).trace with
      | nil => rw [ht] at hhead; simp at hhead
      | cons x rest =>
        rw [ht] at hhead
        simp only [List.head?_cons, Option.some.injEq] at hhead
        rw [Run.calls, ht, hhead]
        simp
    · exact Utils.retryLoop_first_result_ne_null func maxRetries m 0 initialDelayMs none 0
        (by omega)
  have hnull : maxRetries ≤ 0 →
      Utils.retryWithBackoff func maxRetries initialDelayMs = ⟨.threw none, []⟩ := by
    intro hle
    unfold Utils.retryWithBackoff
    exact Utils.retryLoop_exit func maxRetries _ 0 initialDelayMs none 0 (by omega)
  refine ⟨hpos, ⟨?_, ?_⟩, ?_⟩
  · intro hres
    by_contra hgt
    exact (hpos (by omega)).2 hres
  · intro hle
    rw [hnull hle]
  · intro hle
    rw [hnull hle]
    exact ⟨rfl, rfl⟩

/-- C21 at concrete inputs: `maxRetries = 1` with an operation that always
fails, and `maxRetries = 0`. -/
theorem retryWithBackoff_null_rethrow_witness :
    (1 : Int) ≤ 1 ∧ (0 : Int) ≤ 0
    ∧ 1 ≤ (Utils.retryWithBackoff alwaysUnreachable 1 1000).calls
    ∧ (Utils.retryWithBackoff alwaysUnreachable 1 1000).result ≠ .threw none
    ∧ Utils.retryWithBackoff alwaysUnreachable 0 1000 = ⟨.threw none, []⟩ :=
  have h1 := (retryWithBackoff_null_rethrow alwaysUnreachable 1 1000).1 (by decide)
  have h0 := (retryWithBackoff_null_rethrow alwaysUnreachable 0 1000).2.2 (by decide)
  ⟨by decide, by decide, h1.1, h1.2, h0.1⟩

/-! ## The waits of `validateLicenseWithRetry` -/

theorem AdvancedLicenseManager.shiftLeftOne_eq (a : Nat) (ha : a ≤ 30) :
    AdvancedLicenseManager.shiftLeftOne (a : Int) = 2 ^ a := by
  unfold AdvancedLicenseManager.shiftLeftOne
  rw [Int.toNat_natCast]
  apply wrapInt32_of_fits
  unfold fitsInt32
  have h1 : (2 : Int) ^ a ≤ 2 ^ 30 := pow_le_pow_right₀ (by norm_num) ha
  have h2 : (0 : Int) < 2 ^ a := by positivity
  constructor <;> omega

/-- The events of `k` attempts, numbered from `attempt` on, each followed by a
wait of `2 ^ attempt` seconds. -/
theorem AdvancedLicenseManager.networkRetryTrace_snoc (attempt : Int) (k : Nat) :
    AdvancedLicenseManager.networkRetryTrace attempt (k + 1)
      = AdvancedLicenseManager.networkRetryTrace attempt k
        ++ [.invoke, .sleep (1000 * AdvancedLicenseManager.shiftLeftOne (attempt + k))] := by
  induction k generalizing attempt with
  | zero => simp [AdvancedLicenseManager.networkRetryTrace]
  | succ k ih =>
    rw [AdvancedLicenseManager.networkRetryTrace, ih (attempt + 1)]
    simp only [AdvancedLicenseManager.networkRetryTrace, List.cons_append]
    have e : attempt + 1 + (k : Int) = attempt + ((k + 1 : Nat) : Int) := by push_cast; ring
    rw [e]


/-- C22, refuted at `maxRetries = 3`: with three attempts that fail with
`NETWORK_ERROR` the waits are 2 s after the first failure and 4 s after the
second, not 1 s and 2 s. -/
theorem validateLicenseWithRetry_waits_example :
    (AdvancedLicenseManager.validateLicenseWithRetry clientUnreachable "KEY" 3).sleeps
        = [2000, 4000]
    ∧ (AdvancedLicenseManager.validateLicenseWithRetry clientUnreachable "KEY" 3).sleeps
        ≠ [1000 * 2 ^ (1 - 1), 1000 * 2 ^ (2 - 1)] := by
  decide

/-- C22, as the code has it: in `validateLicenseWithRetry`, when the first `a`
attempts fail with `NETWORK_ERROR` and `1 ≤ a < maxRetries`, `a ≤ 30`, the
wait that follows attempt `a` is `1 << a` seconds, that is `2 ^ a` seconds:
2 s after the first failure, 4 s after the second, 8 s after the third,
doubling each time. -/
theorem validateLicenseWithRetry_wait_after_attempt {L : Type} [Inhabited L]
    (validateLicense : String → Nat → Result L) (licenseKey : String) (maxRetries : Int)
    (a : Nat) (ha : 1 ≤ a) (ham : (a : Int) < maxRetries) (ha30 : a ≤ 30)
    (hnet : ∀ j, j < a →
      AdvancedLicenseManager.isNetworkFailure (validateLicense licenseKey j) = true) :
    (AdvancedLicenseManager.validateLicenseWithRetry validateLicense licenseKey
        maxRetries).trace[2 * a - 2]? = some .invoke
    ∧ (AdvancedLicenseManager.validateLicenseWithRetry validateLicense licenseKey
        maxRetries).trace[2 * a - 1]? = some (.sleep (1000 * 2 ^ a))
    ∧ (AdvancedLicenseManager.validateLicenseWithRetry validateLicense licenseKey
        maxRetries).sleeps[a - 1]? = some (1000 * 2 ^ a) := by
  obtain ⟨b, rfl⟩ : ∃ b, a = b + 1 := ⟨a - 1, by omega⟩
  have hrun := AdvancedLicenseManager.validateLoop_failures validateLicense licenseKey maxRetries
    (b + 1) maxRetries.toNat 1 0 (fun j hj => by simpa using hnet j hj) (by omega) (by omega)
  have hshift : AdvancedLicenseManager.shiftLeftOne (1 + (b : Int)) = 2 ^ (b + 1) := by
    have := AdvancedLicenseManager.shiftLeftOne_eq (b + 1) ha30
    rw [← this]
    congr 1
    push_cast
    ring
  have htrace : (AdvancedLicenseManager.validateLicenseWithRetry validateLicense licenseKey
      maxRetries).trace
      = AdvancedLicenseManager.networkRetryTrace 1 b
        ++ ([.invoke, .sleep (1000 * 2 ^ (b + 1))]
          ++ (AdvancedLicenseManager.validateLoop validateLicense licenseKey maxRetries
              (maxRetries.toNat - (b + 1)) (1 + ((b + 1 : Nat) : Int)) (0 + (b + 1))).trace) := by
    unfold AdvancedLicenseManager.validateLicenseWithRetry
    rw [hrun, Run.trace_after, AdvancedLicenseManager.networkRetryTrace_snoc, hshift,
      List.append_assoc]
  have hlen := AdvancedLicenseManager.networkRetryTrace_length b 1
  refine ⟨?_, ?_, ?_⟩
  · have : 2 * (b + 1) - 2 = (AdvancedLicenseManager.networkRetryTrace 1 b).length := by omega
    rw [htrace, this, List.getElem?_append_right (le_refl _)]
    simp
  · have : 2 * (b + 1) - 1 = (AdvancedLicenseManager.networkRetryTrace 1 b).length + 1 := by
      omega
    rw [htrace, this, List.getElem?_append_right (by omega)]
    simp
  · have hl := AdvancedLicenseManager.sleepsIn_networkRetryTrace_length b 1
    rw [Run.sleeps, htrace, sleepsIn_append, List.getElem?_append_right (by omega)]
    simp [hl, sleepsIn_append]

/-- C22 at a concrete input: three failing attempts, the wait after the second
one. -/
theorem validateLicenseWithRetry_wait_after_attempt_witness :
    (1 ≤ 2) ∧ ((2 : Nat) : Int) < 3 ∧ 2 ≤ 30
    ∧ (AdvancedLicenseManager.validateLicenseWithRetry clientUnreachable "KEY" 3).trace[2 * 2 - 1]?
        = some (.sleep (1000 * 2 ^ 2)) :=
  ⟨by decide, by decide, by decide,
    (validateLicenseWithRetry_wait_after_attempt clientUnreachable "KEY" 3 2 (by decide)
      (by decide) (by decide) (fun _ _ => rfl)).2.1⟩

/-! ## Pagination -/

/-- C30: for every pair of ints, `validatePagination` returns
`(max(page, 1), min(max(limit, 1), 100))`: the page returned is at least 1, the
limit returned lies between 1 and 100, a pair in range is returned unchanged,
and applying the function to its own result changes nothing. -/
theorem validatePagination_clamps (page limit : Int) :
    Utils.validatePagination page limit = (max page 1, min (max limit 1) 100)
    ∧ 1 ≤ (Utils.validatePagination page limit).1
    ∧ 1 ≤ (Utils.validatePagination page limit).2
    ∧ (Utils.validatePagination page limit).2 ≤ 100
    ∧ (1 ≤ page → 1 ≤ limit → limit ≤ 100 → Utils.validatePagination page limit = (page, limit))
    ∧ Utils.validatePagination (Utils.validatePagination page limit).1
        (Utils.validatePagination page limit).2 = Utils.validatePagination page limit := by
  refine ⟨rfl, ?_, ?_, ?_, ?_, ?_⟩
  · simp only [Utils.validatePagination]; omega
  · simp only [Utils.validatePagination]; omega
  · simp only [Utils.validatePagination]; omega
  · intro h1 h2 h3
    simp only [Utils.validatePagination]
    rw [max_eq_left h1, max_eq_left h2, min_eq_left h3]
  · simp only [Utils.validatePagination]
    ext
    · simp
    · simp only
      omega


/-- C30 at a concrete input: the pair `(2, 50)` is in range. -/
theorem validatePagination_clamps_witness :
    (1 : Int) ≤ 2 ∧ (1 : Int) ≤ 50 ∧ (50 : Int) ≤ 100
    ∧ Utils.validatePagination 2 50 = (2, 50) :=
  ⟨by decide, by decide, by decide,
    (validatePagination_clamps 2 50).2.2.2.2.1 (by decide) (by decide) (by decide)⟩

/-! ## `truncateString` -/

/-- What `truncateString` computes: the text when it is short enough; for
`maxLength ≥ 3` the first `maxLength - 3` characters and three dots,
`maxLength` characters in all; for `maxLength < 3`, where `maxLength - 3` wraps
to a number larger than any string, the whole text and three dots. -/
theorem Utils.truncateString_cases (text : String) (maxLength : Nat)
    (hlen : text.length < 2 ^ 63) :
    (text.length ≤ maxLength → Utils.truncateString text maxLength = text)
    ∧ (maxLength < text.length → 3 ≤ maxLength →
        Utils.truncateString text maxLength = String.mk (text.data.take (maxLength - 3)) ++ "..."
        ∧ (Utils.truncateString text maxLength).length = maxLength)
    ∧ (maxLength < text.length → maxLength < 3 →
        Utils.truncateString text maxLength = text ++ "..."
        ∧ (Utils.truncateString text maxLength).length = text.length + 3) := by
  have hdata : text.length = text.data.length := rfl
  refine ⟨?_, ?_, ?_⟩
  · intro h
    simp [Utils.truncateString, h]
  · intro h h3
    have hw : Utils.wrapSize ((maxLength : Int) - 3) = maxLength - 3 := by
      unfold Utils.wrapSize
      omega
    have hrun : Utils.truncateString text maxLength
        = String.mk (text.data.take (maxLength - 3)) ++ "..." := by
      simp [Utils.truncateString, Nat.not_le.mpr h, Utils.substr, hw]
    refine ⟨hrun, ?_⟩
    rw [hrun, String.length_append]
    have : ("..." : String).length = 3 := by decide
    rw [this]
    simp only [String.length, List.length_take]
    omega
  · intro h h3
    have hw : text.data.length ≤ Utils.wrapSize ((maxLength : Int) - 3) := by
      unfold Utils.wrapSize
      omega
    have hrun : Utils.truncateString text maxLength = text ++ "..." := by
      simp [Utils.truncateString, Nat.not_le.mpr h, Utils.substr, List.take_of_length_le hw]
    refine ⟨hrun, ?_⟩
    rw [hrun, String.length_append]
    rfl

/-- C24, the code at the failing input: for the text `abcdef` and
`maxLength = 2` the subtraction `maxLength - 3` wraps to `2 ^ 64 - 1`, and
`truncateString` returns the whole text followed by three dots, 9 characters,
which is more than `maxLength`. -/
theorem truncateString_small_maxLength :
    Utils.wrapSize ((2 : Int) - 3) = 2 ^ 64 - 1
    ∧ Utils.truncateString "abcdef" 2 = "abcdef..."
    ∧ (Utils.truncateString "abcdef" 2).length = 9
    ∧ ¬ (Utils.truncateString "abcdef" 2).length ≤ 2
    ∧ Utils.truncateString "abcdef" 0 = "abcdef..."
    ∧ Utils.truncateString "abcdef" 5 = "ab..." := by
  decide

/-! ## `urlEncode` and `urlDecode` -/

/-- C25, the code at the failing input: the tab character is encoded as `%9`,
one hexadecimal digit with no padding, and `%9` is decoded to itself, whatever
the stream library reads from two characters, because two characters must
follow a `%` for it to be decoded; so the tab does not come back. The same
happens to the newline. -/
theorem urlDecode_urlEncode_tab :
    Utils.urlEncode "\t" = "%9"
    ∧ (∀ hexExtract : List Char → Int,
        Utils.urlDecode hexExtract (Utils.urlEncode "\t") = "%9"
        ∧ Utils.urlDecode hexExtract (Utils.urlEncode "\t") ≠ "\t")
    ∧ Utils.urlEncode "\n" = "%A"
    ∧ (∀ hexExtract : List Char → Int,
        Utils.urlDecode hexExtract (Utils.urlEncode "\n") ≠ "\n")
    ∧ Utils.urlEncode "a%b" = "a%25b" := by
  refine ⟨by decide, ?_, by decide, ?_, by decide⟩
  · intro hexExtract
    have h : Utils.urlDecode hexExtract (Utils.urlEncode "\t") = "%9" := by
      have e : Utils.urlEncode "\t" = "%9" := by decide
      rw [e]
      rfl
    exact ⟨h, by rw [h]; decide⟩
  · intro hexExtract
    have h : Utils.urlDecode hexExtract (Utils.urlEncode "\n") = "%A" := by
      have e : Utils.urlEncode "\n" = "%A" := by decide
      rw [e]
      rfl
    rw [h]
    decide

/-! ## License keys -/

theorem Utils.licenseKeyChars_isUpperAlnum :
    ∀ i : Fin 36, Utils.isUpperAlnum (Utils.licenseKeyChars.get (i.cast (by decide))) = true := by
  decide

/-- What `validateLicenseKey` accepts. -/
theorem Utils.validateLicenseKey_iff (licenseKey : String) :
    Utils.validateLicenseKey licenseKey = true
      ↔ licenseKey.length = 32 ∧ ∀ c ∈ licenseKey.data, Utils.isUpperAlnum c = true := by
  unfold Utils.validateLicenseKey Utils.matchesKeyRegex
  by_cases hlen : licenseKey.length = 32
  · have hne : licenseKey.data ≠ [] := by
      intro h
      have : licenseKey.length = 0 := by simp [String.length, h]
      omega
    simp [hlen, hne, List.all_eq_true]
  · simp [hlen]

/-- C28: for every sequence of indices the generator draws,
`generateLicenseKey` returns 32 characters, each in `A-Z` or `0-9`, and
`validateLicenseKey` accepts the key; `validateLicenseKey` accepts a string
exactly when it has 32 characters that are all in `A-Z` or `0-9`. -/
theorem generateLicenseKey_valid (dist : Nat → Fin 36) :
    (Utils.generateLicenseKey dist).length = 32
    ∧ (∀ c ∈ (Utils.generateLicenseKey dist).data, Utils.isUpperAlnum c = true)
    ∧ Utils.validateLicenseKey (Utils.generateLicenseKey dist) = true
    ∧ ∀ s : String, Utils.validateLicenseKey s = true
        ↔ s.length = 32 ∧ ∀ c ∈ s.data, Utils.isUpperAlnum c = true := by
  have hlen : (Utils.generateLicenseKey dist).length = 32 := by
    simp [Utils.generateLicenseKey, String.length]
  have hall : ∀ c ∈ (Utils.generateLicenseKey dist).data, Utils.isUpperAlnum c = true := by
    intro c hc
    simp only [Utils.generateLicenseKey, List.mem_map] at hc
    obtain ⟨i, -, rfl⟩ := hc
    exact Utils.licenseKeyChars_isUpperAlnum (dist i)
  exact ⟨hlen, hall, (Utils.validateLicenseKey_iff _).mpr ⟨hlen, hall⟩,
    Utils.validateLicenseKey_iff⟩


/-! ## UUIDs -/

namespace Utils

theorem streamHex_digit : ∀ d : Fin 16, streamHex d.val = [lowerHexDigit d.val] := by
  decide

theorem lowerHexDigit_isLowerHex : ∀ d : Fin 16, isLowerHex (lowerHexDigit d.val) = true := by
  decide

theorem uuidDigits_eq_map (dist : Nat → Fin 16) (start count : Nat) :
    uuidDigits dist start count
      = (List.range' start count).map fun i => lowerHexDigit (dist i).val := by
  unfold uuidDigits
  generalize List.range' start count = draws
  induction draws with
  | nil => rfl
  | cons i draws ih =>
    rw [List.flatMap_cons, List.map_cons, ih, streamHex_digit]
    rfl

theorem uuidDigits_length (dist : Nat → Fin 16) (start count : Nat) :
    (uuidDigits dist start count).length = count := by
  rw [uuidDigits_eq_map]
  simp

theorem uuidDigits_isLowerHex (dist : Nat → Fin 16) (start count : Nat) :
    ∀ c ∈ uuidDigits dist start count, isLowerHex c = true := by
  intro c hc
  rw [uuidDigits_eq_map, List.mem_map] at hc
  obtain ⟨i, -, rfl⟩ := hc
  exact lowerHexDigit_isLowerHex (dist i)

theorem matchHexRun_append (digits rest : List Char)
    (hall : ∀ c ∈ digits, isLowerHex c = true) :
    matchHexRun digits.length (digits ++ rest) = some rest := by
  induction digits with
  | nil => rfl
  | cons c digits ih =>
    have hc : isLowerHex c = true := hall c (List.mem_cons_self _ _)
    simp only [List.length_cons, List.cons_append, matchHexRun, hc, if_true]
    exact ih fun d hd => hall d (List.mem_cons_of_mem _ hd)

theorem matchHexRun_uuidDigits (dist : Nat → Fin 16) (start count : Nat) (rest : List Char) :
    matchHexRun count (uuidDigits dist start count ++ rest) = some rest := by
  have h := matchHexRun_append (uuidDigits dist start count) rest
    (uuidDigits_isLowerHex dist start count)
  rwa [uuidDigits_length] at h

end Utils

/-- C29: for every sequence of draws, `generateUuid` returns 36 characters: 8,
4, 4, 4 and 12 lowercase hexadecimal digits separated by `-`, the third group
beginning with `4` and the fourth with the digit of the draw from 8 to 11,
one of `8`, `9`, `a`, `b`; and `validateUuid` accepts it. -/
theorem generateUuid_valid (dist : Nat → Fin 16) (dist2 : Fin 4) :
    Utils.validateUuid (Utils.generateUuid dist dist2) = true
    ∧ (Utils.generateUuid dist dist2).length = 36
    ∧ (∃ g1 g2 g3 g4 g5 : List Char, ∃ y : Char,
        (Utils.generateUuid dist dist2).data
          = g1 ++ ('-' :: (g2 ++ ('-' :: '4' :: (g3 ++ ('-' :: y :: (g4 ++ ('-' :: g5)))))))
        ∧ g1.length = 8 ∧ g2.length = 4 ∧ g3.length = 3 ∧ g4.length = 3 ∧ g5.length = 12
        ∧ (∀ c ∈ g1 ++ g2 ++ g3 ++ g4 ++ g5, Utils.isLowerHex c = true)
        ∧ (y = '8' ∨ y = '9' ∨ y = 'a' ∨ y = 'b')) := by
  have hy : ∀ d : Fin 4,
      Utils.streamHex (8 + d.val) = [Utils.lowerHexDigit (8 + d.val)]
      ∧ Utils.isLowerHex (Utils.lowerHexDigit (8 + d.val)) = true
      ∧ (Utils.lowerHexDigit (8 + d.val) = '8' ∨ Utils.lowerHexDigit (8 + d.val) = '9'
        ∨ Utils.lowerHexDigit (8 + d.val) = 'a' ∨ Utils.lowerHexDigit (8 + d.val) = 'b') := by
    decide
  obtain ⟨hy1, hy2, hy3⟩ := hy dist2
  generalize Utils.lowerHexDigit (8 + dist2.val) = y at hy1 hy2 hy3
  have hdata : (Utils.generateUuid dist dist2).data
      = Utils.uuidDigits dist 0 8 ++ ('-' :: (Utils.uuidDigits dist 8 4 ++ ('-' :: '4'
        :: (Utils.uuidDigits dist 12 3 ++ ('-' :: y :: (Utils.uuidDigits dist 15 3 ++ ('-'
        :: Utils.uuidDigits dist 18 12))))))) := by
    simp [Utils.generateUuid, hy1]
  refine ⟨?_, ?_, ?_⟩
  · have h4 : Utils.isLowerHex '4' = true := by decide
    have hne : (Utils.generateUuid dist dist2).data.isEmpty = false := by
      rw [hdata]
      cases h : Utils.uuidDigits dist 0 8 with
      | nil =>
        have := Utils.uuidDigits_length dist 0 8
        rw [h] at this
        simp at this
      | cons c cs => rfl
    have h3 : ∀ rest : List Char,
        Utils.matchHexRun 4 ('4' :: (Utils.uuidDigits dist 12 3 ++ rest)) = some rest := by
      intro rest
      have := Utils.matchHexRun_uuidDigits dist 12 3 rest
      simp only [Utils.matchHexRun, h4, if_true]
      exact this
    have h5 : ∀ rest : List Char,
        Utils.matchHexRun 4 (y :: (Utils.uuidDigits dist 15 3 ++ rest)) = some rest := by
      intro rest
      have := Utils.matchHexRun_uuidDigits dist 15 3 rest
      simp only [Utils.matchHexRun, hy2, if_true]
      exact this
    have h12 : Utils.matchHexRun 12 (Utils.uuidDigits dist 18 12) = some [] := by
      have := Utils.matchHexRun_uuidDigits dist 18 12 []
      simpa using this
    unfold Utils.validateUuid
    rw [hne, hdata]
    simp only [Bool.false_eq_true, if_false, Utils.matchesUuidRegex,
      Utils.matchHexRun_uuidDigits, Option.some_bind, Utils.matchDash, if_true, h3, h5, h12,
      List.cons_append]
  · simp [String.length, hdata, Utils.uuidDigits_length]
  · refine ⟨Utils.uuidDigits dist 0 8, Utils.uuidDigits dist 8 4, Utils.uuidDigits dist 12 3,
      Utils.uuidDigits dist 15 3, Utils.uuidDigits dist 18 12, y, hdata,
      Utils.uuidDigits_length _ _ _, Utils.uuidDigits_length _ _ _,
      Utils.uuidDigits_length _ _ _, Utils.uuidDigits_length _ _ _,
      Utils.uuidDigits_length _ _ _, ?_, hy3⟩
    intro c hc
    simp only [List.mem_append] at hc
    rcases hc with (((hc | hc) | hc) | hc) | hc <;>
      exact Utils.uuidDigits_isLowerHex _ _ _ c hc


/-! ## `chunkArray` -/

namespace Utils

theorem chunk_length (array : List String) (chunkSize i : Nat) :
    ((array.drop i).take (min (i + chunkSize) array.length - i)).length
      = min chunkSize (array.length - i) := by
  simp only [List.length_take, List.length_drop]
  omega

theorem chunk_append_drop (array : List String) (chunkSize i : Nat) :
    (array.drop i).take (min (i + chunkSize) array.length - i) ++ array.drop (i + chunkSize)
      = array.drop i := by
  by_cases h : i + chunkSize ≤ array.length
  · have hk : min (i + chunkSize) array.length - i = chunkSize := by omega
    rw [hk, ← List.drop_drop]
    exact List.take_append_drop chunkSize (array.drop i)
  · have hk : (array.drop i).length ≤ min (i + chunkSize) array.length - i := by
      simp only [List.length_drop]
      omega
    have hd : array.drop (i + chunkSize) = [] := List.drop_eq_nil_of_le (by omega)
    rw [List.take_of_length_le hk, hd, List.append_nil]

theorem chunk_count_step (n i chunkSize : Nat) (hc : 1 ≤ chunkSize) (hi : i < n) :
    (n - (i + chunkSize) + chunkSize - 1) / chunkSize + 1
      = (n - i + chunkSize - 1) / chunkSize := by
  by_cases h : i + chunkSize ≤ n
  · have e : n - i + chunkSize - 1 = (n - (i + chunkSize) + chunkSize - 1) + chunkSize := by
      omega
    rw [e, Nat.add_div_right _ (by omega)]
  · have e1 : n - (i + chunkSize) + chunkSize - 1 = chunkSize - 1 := by omega
    have h1 : (chunkSize - 1) / chunkSize = 0 := Nat.div_eq_of_lt (by omega)
    have e2 : n - i + chunkSize - 1 = (n - i - 1) + chunkSize := by omega
    have h2 : (n - i - 1) / chunkSize = 0 := Nat.div_eq_of_lt (by omega)
    rw [e1, h1, e2, Nat.add_div_right _ (by omega), h2]

/-- The loop from index `i` on, with enough iterations allowed. -/
theorem chunkLoop_spec (array : List String) (chunkSize : Nat) (hc : 1 ≤ chunkSize) (fuel : Nat) :
    ∀ i, array.length - i < fuel →
      ∃ chunks, chunkLoop array chunkSize fuel i = some chunks
        ∧ chunks.flatten = array.drop i
        ∧ chunks.length = (array.length - i + chunkSize - 1) / chunkSize
        ∧ (∀ chunk ∈ chunks.dropLast, chunk.length = chunkSize)
        ∧ (∀ chunk ∈ chunks, 1 ≤ chunk.length ∧ chunk.length ≤ chunkSize) := by
  induction fuel with
  | zero => intro i h; omega
  | succ fuel ih =>
    intro i hfuel
    by_cases hi : i < array.length
    · obtain ⟨rest, hrest, hflat, hcount, hfull, hall⟩ := ih (i + chunkSize) (by omega)
      refine ⟨(array.drop i).take (min (i + chunkSize) array.length - i) :: rest, ?_, ?_, ?_, ?_,
        ?_⟩
      · simp [chunkLoop, hi, hrest]
      · rw [List.flatten_cons, hflat]
        exact chunk_append_drop array chunkSize i
      · rw [List.length_cons, hcount]
        exact chunk_count_step array.length i chunkSize hc hi
      · intro chunk hmem
        cases hr : rest with
        | nil => rw [hr] at hmem; simp at hmem
        | cons r rs =>
          rw [hr, List.dropLast_cons₂, List.mem_cons] at hmem
          rcases hmem with rfl | hmem
          · rw [chunk_length]
            have hpos : 1 ≤ (array.length - (i + chunkSize) + chunkSize - 1) / chunkSize := by
              rw [← hcount, hr]; simp
            have : i + chunkSize < array.length := by
              by_contra hge
              have e1 : array.length - (i + chunkSize) + chunkSize - 1 = chunkSize - 1 := by omega
              rw [e1, Nat.div_eq_of_lt (by omega)] at hpos
              omega
            omega
          · exact hfull chunk (by rw [hr]; exact hmem)
      · intro chunk hmem
        rw [List.mem_cons] at hmem
        rcases hmem with rfl | hmem
        · rw [chunk_length]
          omega
        · exact hall chunk hmem
    · refine ⟨[], ?_, ?_, ?_, ?_, ?_⟩
      · simp [chunkLoop, hi]
      · rw [List.drop_eq_nil_of_le (by omega)]
        rfl
      · have e : array.length - i + chunkSize - 1 = chunkSize - 1 := by omega
        rw [e, Nat.div_eq_of_lt (by omega)]
        rfl
      · intro chunk hmem; simp at hmem
      · intro chunk hmem; simp at hmem

/-- The result does not depend on how many more iterations are allowed. -/
theorem chunkLoop_fuel (array : List String) (chunkSize : Nat) (hc : 1 ≤ chunkSize)
    (fuel : Nat) :
    ∀ (fuel' i : Nat), array.length - i < fuel → array.length - i < fuel' →
      chunkLoop array chunkSize fuel i = chunkLoop array chunkSize fuel' i := by
  induction fuel with
  | zero => intro fuel' i h; omega
  | succ fuel ih =>
    intro fuel' i h h'
    obtain ⟨fuel', rfl⟩ : ∃ f, fuel' = f + 1 := ⟨fuel' - 1, by omega⟩
    by_cases hi : i < array.length
    · simp only [chunkLoop, hi, if_true]
      rw [ih fuel' (i + chunkSize) (by omega) (by omega)]
    · simp [chunkLoop, hi]

/-- With `chunkSize = 0` the index never moves, and no number of iterations
ends the loop. -/
theorem chunkLoop_zero (array : List String) (fuel : Nat) :
    ∀ i, i < array.length → chunkLoop array 0 fuel i = none := by
  induction fuel with
  | zero => intro i _; rfl
  | succ fuel ih =>
    intro i hi
    simp only [chunkLoop, hi, if_true, Nat.add_zero, ih i hi, Option.map_none']

end Utils

/-- C26: for every array and every `chunkSize ≥ 1`, `chunkArray` terminates,
with the same result whenever more than `n` iterations are allowed, and
returns `ceil(n / chunkSize)` chunks whose concatenation in order is the
array; every chunk but the last has exactly `chunkSize` elements and the last
has between 1 and `chunkSize`; an empty array gives no chunks. With
`chunkSize = 0` and an array that is not empty the loop does not end, however
many iterations are allowed. -/
theorem chunkArray_chunks (array : List String) (chunkSize : Nat) :
    (1 ≤ chunkSize →
      ∃ chunks : List (List String),
        (∀ fuel, array.length < fuel → Utils.chunkArray array chunkSize fuel = some chunks)
        ∧ chunks.length = (array.length + chunkSize - 1) / chunkSize
        ∧ chunks.flatten = array
        ∧ (∀ chunk ∈ chunks.dropLast, chunk.length = chunkSize)
        ∧ (∀ chunk, chunks.getLast? = some chunk → 1 ≤ chunk.length ∧ chunk.length ≤ chunkSize)
        ∧ (array = [] → chunks = []))
    ∧ (array ≠ [] → ∀ fuel, Utils.chunkArray array 0 fuel = none) := by
  constructor
  · intro hc
    obtain ⟨chunks, hrun, hflat, hcount, hfull, hall⟩ :=
      Utils.chunkLoop_spec array chunkSize hc (array.length + 1) 0 (by omega)
    refine ⟨chunks, ?_, ?_, ?_, hfull, ?_, ?_⟩
    · intro fuel hfuel
      unfold Utils.chunkArray
      rw [Utils.chunkLoop_fuel array chunkSize hc fuel (array.length + 1) 0 (by omega) (by omega)]
      exact hrun
    · simpa using hcount
    · simpa using hflat
    · intro chunk hlast
      exact hall chunk (List.mem_of_getLast?_eq_some hlast)
    · intro hnil
      subst hnil
      have : chunks.length = 0 := by
        rw [hcount]
        simp only [List.length_nil, Nat.zero_sub, Nat.zero_add]
        exact Nat.div_eq_of_lt (by omega)
      exact List.length_eq_zero.mp this
  · intro hne fuel
    unfold Utils.chunkArray
    exact Utils.chunkLoop_zero array fuel 0 (List.length_pos.mpr hne)

/-- C26 at concrete inputs: five elements in chunks of two, and a chunk size of
zero. -/
theorem chunkArray_chunks_witness :
    1 ≤ 2 ∧ ["a", "b", "c", "d", "e"] ≠ []
    ∧ (∃ chunks : List (List String),
        Utils.chunkArray ["a", "b", "c", "d", "e"] 2 6 = some chunks
        ∧ chunks.length = (5 + 2 - 1) / 2
        ∧ chunks.flatten = ["a", "b", "c", "d", "e"])
    ∧ Utils.chunkArray ["a", "b", "c", "d", "e"] 2 6 = some [["a", "b"], ["c", "d"], ["e"]]
    ∧ Utils.chunkArray ["a", "b", "c", "d", "e"] 0 1000 = none :=
  have h := chunkArray_chunks ["a", "b", "c", "d", "e"] 2
  have h0 := (chunkArray_chunks ["a", "b", "c", "d", "e"] 0).2 (by decide) 1000
  ⟨by decide, by decide,
    (h.1 (by decide)).imp fun chunks hc => ⟨hc.1 6 (by decide), hc.2.1, hc.2.2.1⟩,
    by decide, h0⟩

/-! ## Slugs -/

namespace Utils

theorem isupper_iff (c : Char) : isupper c = true ↔ 65 ≤ c.toNat ∧ c.toNat ≤ 90 := by
  simp only [isupper, Bool.and_eq_true, decide_eq_true_eq]
  rfl

theorem isupper_tolower (c : Char) : isupper (tolower c) = false := by
  unfold tolower
  by_cases h : isupper c = true
  · rw [if_pos h]
    obtain ⟨h1, h2⟩ := (isupper_iff c).mp h
    generalize c.toNat = n at h1 h2
    interval_cases n <;> decide
  · rw [if_neg h]
    exact (Bool.not_eq_true _).mp h

theorem tolower_of_not_upper (c : Char) (h : isupper c = false) : tolower c = c := by
  simp [tolower, h]


theorem slugChars_maps (text : List Char) :
    SlugChars (replaceChar '_' '-' (replaceChar ' ' '-' (text.map tolower))) := by
  intro c hc
  simp only [replaceChar, List.map_map, List.mem_map, Function.comp] at hc
  obtain ⟨a, -, rfl⟩ := hc
  have hup := isupper_tolower a
  have hd : isupper '-' = false := by decide
  by_cases h1 : tolower a = ' '
  · simp only [h1, if_true]
    decide
  · simp only [h1, if_false]
    by_cases h2 : tolower a = '_'
    · simp only [h2, if_true]
      decide
    · simp only [h2, if_false]
      exact ⟨h1, h2, hup⟩

theorem collapseDashes_sublist (l : List Char) : (collapseDashes l).Sublist l := by
  induction l using collapseDashes.induct with
  | case1 => exact List.Sublist.refl _
  | case2 c => exact List.Sublist.refl _
  | case3 c d rest h ih =>
    rw [collapseDashes, if_pos h]
    exact ih.trans (List.sublist_cons_self _ _)
  | case4 c d rest h ih =>
    rw [collapseDashes, if_neg h]
    exact ih.cons₂ c

theorem collapseDashes_head (l : List Char) : (collapseDashes l).head? = l.head? := by
  induction l using collapseDashes.induct with
  | case1 => rfl
  | case2 c => rfl
  | case3 c d rest h ih =>
    rw [collapseDashes, if_pos h, ih]
    simp [h.1, h.2]
  | case4 c d rest h ih =>
    rw [collapseDashes, if_neg h]
    rfl

theorem collapseDashes_noDoubleDash (l : List Char) : NoDoubleDash (collapseDashes l) := by
  unfold NoDoubleDash
  induction l using collapseDashes.induct with
  | case1 => exact List.chain'_nil
  | case2 c => exact List.chain'_singleton c
  | case3 c d rest h ih =>
    rw [collapseDashes, if_pos h]
    exact ih
  | case4 c d rest h ih =>
    rw [collapseDashes, if_neg h]
    refine List.Chain'.cons' ih ?_
    intro y hy
    rw [collapseDashes_head] at hy
    simp only [List.head?_cons, Option.mem_def, Option.some.injEq] at hy
    subst hy
    exact h

theorem collapseDashes_of_noDoubleDash (l : List Char) (h : NoDoubleDash l) :
    collapseDashes l = l := by
  unfold NoDoubleDash at h
  induction l using collapseDashes.induct with
  | case1 => rfl
  | case2 c => rfl
  | case3 c d rest hcd ih =>
    exact absurd hcd (List.Chain'.rel_head h)
  | case4 c d rest hcd ih =>
    rw [collapseDashes, if_neg hcd, ih (List.chain'_cons.mp h).2]

theorem dropLeadingDash_head (l : List Char) (h : NoDoubleDash l) :
    (dropLeadingDash l).head? ≠ some '-' := by
  unfold dropLeadingDash
  by_cases hh : l.head? = some '-'
  · rw [if_pos hh]
    cases l with
    | nil => simp
    | cons a t =>
      simp only [List.head?_cons, Option.some.injEq] at hh
      subst hh
      cases t with
      | nil => simp
      | cons b t' =>
        intro hb
        simp only [List.drop_one, List.tail_cons, List.head?_cons, Option.some.injEq] at hb
        exact List.Chain'.rel_head h ⟨rfl, hb⟩
  · rw [if_neg hh]
    exact hh

theorem dropLeadingDash_noDoubleDash (l : List Char) (h : NoDoubleDash l) :
    NoDoubleDash (dropLeadingDash l) := by
  unfold dropLeadingDash
  split
  · exact List.Chain'.drop h 1
  · exact h

theorem dropLeadingDash_sublist (l : List Char) : (dropLeadingDash l).Sublist l := by
  unfold dropLeadingDash
  split
  · exact List.drop_sublist 1 l
  · exact List.Sublist.refl l

theorem dropTrailingDash_noDoubleDash (l : List Char) (h : NoDoubleDash l) :
    NoDoubleDash (dropTrailingDash l) := by
  unfold dropTrailingDash
  split
  · exact List.Chain'.init h
  · exact h

theorem dropTrailingDash_sublist (l : List Char) : (dropTrailingDash l).Sublist l := by
  unfold dropTrailingDash
  split
  · exact List.dropLast_sublist l
  · exact List.Sublist.refl l

theorem dropTrailingDash_last (l : List Char) (h : NoDoubleDash l) :
    (dropTrailingDash l).getLast? ≠ some '-' := by
  unfold dropTrailingDash
  by_cases hl : l.getLast? = some '-'
  · rw [if_pos hl]
    rcases List.eq_nil_or_concat l with rfl | ⟨l', b, rfl⟩
    · simp
    · rw [List.concat_eq_append] at hl h ⊢
      rw [List.getLast?_concat] at hl
      simp only [Option.some.injEq] at hl
      subst hl
      rw [List.dropLast_concat]
      intro hl'
      rcases List.eq_nil_or_concat l' with rfl | ⟨l'', a, rfl⟩
      · simp at hl'
      · rw [List.concat_eq_append] at hl' h
        rw [List.getLast?_concat] at hl'
        simp only [Option.some.injEq] at hl'
        subst hl'
        have h2 : List.Chain' (fun a b => ¬ (a = '-' ∧ b = '-')) (l'' ++ ['-', '-']) := by
          simp only [NoDoubleDash, List.append_assoc, List.singleton_append] at h
          exact h
        exact List.Chain'.rel_head (List.Chain'.right_of_append h2) ⟨rfl, rfl⟩
  · rw [if_neg hl]
    exact hl

theorem dropTrailingDash_head (l : List Char) (h : l.head? ≠ some '-') :
    (dropTrailingDash l).head? ≠ some '-' := by
  unfold dropTrailingDash
  split
  · rw [List.head?_dropLast]
    split
    · exact h
    · simp
  · exact h

/-- The four properties of a slug. -/
theorem slugifyChars_slug (text : List Char) :
    (slugifyChars text).head? ≠ some '-'
    ∧ (slugifyChars text).getLast? ≠ some '-'
    ∧ NoDoubleDash (slugifyChars text)
    ∧ SlugChars (slugifyChars text) := by
  unfold slugifyChars
  simp only
  have h0 := slugChars_maps text
  generalize replaceChar '_' '-' (replaceChar ' ' '-' (text.map tolower)) = l0 at h0
  have h1 := collapseDashes_noDoubleDash l0
  have h2 := dropLeadingDash_noDoubleDash _ h1
  refine ⟨dropTrailingDash_head _ (dropLeadingDash_head _ h1), dropTrailingDash_last _ h2,
    dropTrailingDash_noDoubleDash _ h2, ?_⟩
  intro c hc
  exact h0 c (((dropTrailingDash_sublist _).trans ((dropLeadingDash_sublist _).trans
    (collapseDashes_sublist l0))).subset hc)

/-- A slug is left unchanged. -/
theorem slugifyChars_of_slug (l : List Char) (hhead : l.head? ≠ some '-')
    (hlast : l.getLast? ≠ some '-') (hnd : NoDoubleDash l) (hch : SlugChars l) :
    slugifyChars l = l := by
  have h1 : l.map tolower = l := by
    conv_rhs => rw [← List.map_id l]
    apply List.map_congr_left
    intro c hc
    exact tolower_of_not_upper c (hch c hc).2.2
  have h2 : replaceChar ' ' '-' l = l := by
    unfold replaceChar
    conv_rhs => rw [← List.map_id l]
    apply List.map_congr_left
    intro c hc
    simp [(hch c hc).1]
  have h3 : replaceChar '_' '-' l = l := by
    unfold replaceChar
    conv_rhs => rw [← List.map_id l]
    apply List.map_congr_left
    intro c hc
    simp [(hch c hc).2.1]
  unfold slugifyChars
  simp only [h1, h2, h3, collapseDashes_of_noDoubleDash l hnd]
  have h4 : dropLeadingDash l = l := by simp [dropLeadingDash, hhead]
  rw [h4]
  simp [dropTrailingDash, hlast]

end Utils

/-- C23: for every input string, the result of `slugify` neither begins nor
ends with a dash, has no two dashes in a row, and contains no space, no
underscore and no ASCII upper-case letter; and `slugify` leaves its own result
unchanged. -/
theorem slugify_slug (text : String) :
    (Utils.slugify text).data.head? ≠ some '-'
    ∧ (Utils.slugify text).data.getLast? ≠ some '-'
    ∧ (Utils.slugify text).data.Chain' (fun a b => ¬ (a = '-' ∧ b = '-'))
    ∧ (∀ c ∈ (Utils.slugify text).data, c ≠ ' ' ∧ c ≠ '_' ∧ Utils.isupper c = false)
    ∧ Utils.slugify (Utils.slugify text) = Utils.slugify text := by
  by_cases hempty : text.data.isEmpty = true
  · have hrun : Utils.slugify text = text := by simp [Utils.slugify, hempty]
    have hnil : text.data = [] := List.isEmpty_iff.mp hempty
    rw [hrun, hnil]
    refine ⟨by simp, by simp, List.chain'_nil, ?_, hrun⟩
    intro c hc
    simp at hc
  · have hrun : Utils.slugify text = String.mk (Utils.slugifyChars text.data) := by
      simp [Utils.slugify, hempty]
    obtain ⟨h1, h2, h3, h4⟩ := Utils.slugifyChars_slug text.data
    refine ⟨by rw [hrun]; exact h1, by rw [hrun]; exact h2, by rw [hrun]; exact h3,
      by rw [hrun]; exact h4, ?_⟩
    rw [hrun]
    unfold Utils.slugify
    split
    · rfl
    · rw [Utils.slugifyChars_of_slug _ h1 h2 h3 h4]


/-! ## JSON -/

namespace Utils

theorem untilQuote_append (taken rest : List Char) (h : quote ∉ taken) :
    untilQuote (taken ++ quote :: rest) = some (taken, rest) := by
  induction taken with
  | nil => simp [untilQuote]
  | cons c taken ih =>
    have hc : c ≠ quote := fun e => h (by simp [e])
    have ht : quote ∉ taken := fun hm => h (List.mem_cons_of_mem _ hm)
    simp [untilQuote, hc, ih ht]

theorem matchKeyValue_jsonEntry (key value : String) (tail : List Char)
    (hkey : key.data ≠ []) (hk : quote ∉ key.data) (hv : quote ∉ value.data) :
    matchKeyValue (jsonEntry key value ++ tail) = some (key.data, value.data, tail) := by
  have h1 : jsonEntry key value ++ tail
      = quote :: (key.data ++ quote :: (':' :: quote :: (value.data ++ quote :: tail))) := by
    simp [jsonEntry]
  have hs1 : isspace ':' = false := by decide
  have hs2 : isspace quote = false := by decide
  rw [h1]
  simp only [matchKeyValue, if_true, untilQuote_append _ _ hk, hkey, if_false,
    List.dropWhile_cons, hs1, hs2, Bool.false_eq_true, untilQuote_append _ _ hv]

theorem matchKeyValue_of_ne_quote (c : Char) (s : List Char) (h : c ≠ quote) :
    matchKeyValue (c :: s) = none := by
  simp [matchKeyValue, h]

theorem jsonSerializeLoop_cons (first : Bool) (key value : String)
    (rest : List (String × String)) :
    jsonSerializeLoop first ((key, value) :: rest)
      = (if first then [] else [',']) ++ (jsonEntry key value ++ jsonSerializeLoop false rest) := by
  simp [jsonSerializeLoop, jsonEntry]

theorem jsonEntry_length_pos (key value : String) : 1 ≤ (jsonEntry key value).length := by
  simp [jsonEntry]

/-- The scan of what the loop of `jsonSerialize` writes finds the entries, in
order. -/
theorem scanKeyValues_jsonSerializeLoop (entries : List (String × String))
    (hentries : ∀ kv ∈ entries, kv.1.data ≠ [] ∧ quote ∉ kv.1.data ∧ quote ∉ kv.2.data) :
    ∀ (first : Bool) (fuel : Nat),
      (jsonSerializeLoop first entries ++ [Char.ofNat 125]).length ≤ fuel →
      scanKeyValues fuel (jsonSerializeLoop first entries ++ [Char.ofNat 125]) = entries := by
  induction entries with
  | nil =>
    intro first fuel hfuel
    obtain ⟨fuel, rfl⟩ : ∃ f, fuel = f + 1 := ⟨fuel - 1, by simp at hfuel; omega⟩
    have hb : Char.ofNat 125 ≠ quote := by decide
    cases first <;>
      · simp only [jsonSerializeLoop, List.nil_append, scanKeyValues,
          matchKeyValue_of_ne_quote _ _ hb]
        cases fuel <;> rfl
  | cons entry rest ih =>
    obtain ⟨key, value⟩ := entry
    obtain ⟨hkey, hk, hv⟩ := hentries (key, value) (List.mem_cons_self _ _)
    have hrest : ∀ kv ∈ rest, kv.1.data ≠ [] ∧ quote ∉ kv.1.data ∧ quote ∉ kv.2.data :=
      fun kv hkv => hentries kv (List.mem_cons_of_mem _ hkv)
    have hstep : ∀ fuel : Nat,
        (jsonEntry key value ++ (jsonSerializeLoop false rest ++ [Char.ofNat 125])).length ≤ fuel →
        scanKeyValues fuel
            (jsonEntry key value ++ (jsonSerializeLoop false rest ++ [Char.ofNat 125]))
          = (key, value) :: rest := by
      intro fuel hfuel
      have hpos := jsonEntry_length_pos key value
      obtain ⟨fuel, rfl⟩ : ∃ f, fuel = f + 1 :=
        ⟨fuel - 1, by rw [List.length_append] at hfuel; omega⟩
      have hm := matchKeyValue_jsonEntry key value
        (jsonSerializeLoop false rest ++ [Char.ofNat 125]) hkey hk hv
      cases hl : jsonEntry key value ++ (jsonSerializeLoop false rest ++ [Char.ofNat 125]) with
      | nil =>
        rw [hl] at hfuel
        have := congrArg List.length hl
        rw [List.length_append] at this
        simp at this
      | cons c s =>
        rw [hl] at hm
        simp only [scanKeyValues, hm]
        rw [ih hrest false fuel (by
          rw [List.length_append] at hfuel
          omega)]
    intro first fuel hfuel
    cases first with
    | true =>
      have e : jsonSerializeLoop true ((key, value) :: rest) ++ [Char.ofNat 125]
          = jsonEntry key value ++ (jsonSerializeLoop false rest ++ [Char.ofNat 125]) := by
        rw [jsonSerializeLoop_cons]
        simp
      rw [e] at hfuel ⊢
      exact hstep fuel hfuel
    | false =>
      have e : jsonSerializeLoop false ((key, value) :: rest) ++ [Char.ofNat 125]
          = ',' :: (jsonEntry key value ++ (jsonSerializeLoop false rest ++ [Char.ofNat 125])) := by
        rw [jsonSerializeLoop_cons]
        simp
      rw [e] at hfuel ⊢
      rw [List.length_cons] at hfuel
      obtain ⟨fuel, rfl⟩ : ∃ f, fuel = f + 1 := ⟨fuel - 1, by omega⟩
      have hc : ',' ≠ quote := by decide
      simp only [scanKeyValues, matchKeyValue_of_ne_quote _ _ hc]
      exact hstep fuel (by omega)

end Utils

namespace StdMap

theorem assign_of_not_mem {V : Type} (m : StdMap V) (key : String) (value : V)
    (h : key ∉ keys m) : assign m key value = m ++ [(key, value)] := by
  induction m with
  | nil => rfl
  | cons entry rest ih =>
    obtain ⟨k, v⟩ := entry
    simp only [keys, List.map_cons, List.mem_cons, not_or] at h
    have hk : ¬ k = key := fun e => h.1 e.symm
    simp only [assign, hk, if_false, List.cons_append]
    rw [ih h.2]

/-- Assigning the entries of a map with distinct keys one after the other
rebuilds the map. -/
theorem foldl_assign {V : Type} (entries : List (String × V)) :
    ∀ acc : StdMap V, (keys (acc ++ entries)).Nodup →
      entries.foldl (fun result kv => assign result kv.1 kv.2) acc = acc ++ entries := by
  induction entries with
  | nil => intro acc _; simp
  | cons entry rest ih =>
    intro acc hnodup
    obtain ⟨k, v⟩ := entry
    have hk : k ∉ keys acc := by
      simp only [keys, List.map_append, List.map_cons] at hnodup
      have := (List.nodup_append.mp hnodup).2.2
      intro hmem
      exact this hmem (List.mem_cons_self _ _)
    rw [List.foldl_cons, assign_of_not_mem acc k v hk, ih (acc ++ [(k, v)]) (by simpa using hnodup)]
    simp

end StdMap

/-- The round trip of the repaired function: were the literal of line 436
closed where it is meant to be, then for every map whose keys are distinct and
not empty and whose keys and values contain no double quote,
`jsonDeserialize(jsonSerialize(m))` would be `m`: the same entries, every key
with its own value and no other key, whatever other characters the keys and
values contain. -/
theorem repaired_jsonDeserialize_jsonSerialize (m : StdMap String)
    (hnodup : (StdMap.keys m).Nodup)
    (hentries : ∀ kv ∈ m,
      kv.1.data ≠ [] ∧ Utils.quote ∉ kv.1.data ∧ Utils.quote ∉ kv.2.data) :
    Utils.jsonDeserialize (Utils.jsonSerialize m) = m
    ∧ (∀ key : String,
        StdMap.find (Utils.jsonDeserialize (Utils.jsonSerialize m)) key = StdMap.find m key)
    ∧ StdMap.size (Utils.jsonDeserialize (Utils.jsonSerialize m)) = StdMap.size m := by
  have hscan : Utils.scanKeyValues (Utils.jsonSerialize m).data.length
      (Utils.jsonSerialize m).data = m := by
    have hdata : (Utils.jsonSerialize m).data
        = Char.ofNat 123 :: (Utils.jsonSerializeLoop true m ++ [Char.ofNat 125]) := by
      simp [Utils.jsonSerialize]
    have hb : Char.ofNat 123 ≠ Utils.quote := by decide
    rw [hdata, List.length_cons]
    simp only [Utils.scanKeyValues, Utils.matchKeyValue_of_ne_quote _ _ hb]
    exact Utils.scanKeyValues_jsonSerializeLoop m hentries true _ (le_refl _)
  have hrun : Utils.jsonDeserialize (Utils.jsonSerialize m) = m := by
    unfold Utils.jsonDeserialize
    rw [hscan, StdMap.foldl_assign m [] (by simpa using hnodup)]
    rfl
  exact ⟨hrun, fun key => by rw [hrun], by rw [hrun]⟩

/-- The round trip of the repaired function at a concrete input: a map of three
entries, with a value that contains a comma, a colon and spaces, and an empty
value. -/
theorem repaired_jsonDeserialize_jsonSerialize_example :
    (StdMap.keys [("a", "1"), ("b c", "x, y: z"), ("k", "")]).Nodup
    ∧ Utils.jsonDeserialize (Utils.jsonSerialize [("a", "1"), ("b c", "x, y: z"), ("k", "")])
        = [("a", "1"), ("b c", "x, y: z"), ("k", "")] :=
  ⟨by decide,
    (repaired_jsonDeserialize_jsonSerialize [("a", "1"), ("b c", "x, y: z"), ("k", "")]
      (by decide) (by decide)).1⟩

/-- C27, the code at the failing input: `jsonSerialize` of the map with the
one entry `a`, `1` is well-formed JSON, but the raw string literal of
`utils.cpp:436` ends at the first `)` that a double quote follows, right after
the first group: the literal holds `"([^"]+` and not the 25 characters of the
expression, and the text left on the line after it begins with a backslash and
is not the `);` that would close the declaration. The line is ill-formed, so
`jsonDeserialize` cannot be compiled and returns no map for that string or
any other. -/
theorem jsonDeserialize_literal_ends_early :
    (Utils.jsonSerialize [("a", "1")]).data
        = [Char.ofNat 123, Utils.quote, 'a', Utils.quote, ':', Utils.quote, '1', Utils.quote,
            Char.ofNat 125]
    ∧ Utils.rawStringLiteral Utils.keyValueRegexSource
        = some ([Utils.quote] ++ "([^".data ++ [Utils.quote] ++ "]+".data,
            "\\s*:\\s*".data ++ [Utils.quote] ++ "([^".data ++ [Utils.quote] ++ "]*)".data
              ++ [Utils.quote] ++ ")".data ++ [Utils.quote] ++ ");".data)
    ∧ (Utils.rawStringLiteral Utils.keyValueRegexSource).map (fun r => r.2.head?)
        = some (some (Char.ofNat 92))
    ∧ Utils.rawStringLiteral Utils.keyValueRegexSource
        ≠ some (Utils.keyValueRegexSource.take 25, ");".data) := by
  decide

end LicenseChain
